import Mathlib

/-!
Verification of the x265_optimizer search engine.

Shallow embedding of the repository's search core:
  * `src/core_refactor/params.py`     — Parameter / Module / SearchSpace
  * `src/core_refactor/algorithms.py` — RelevancyGuidedOptimizer
  * `src/core_refactor/cost.py`       — X265CostEvaluator (cache / pruning)
  * `src/core/optimizer.py`           — simulated annealing
  * `src/experiments/baselines/random_search.py` and `genetic.py`

Python floats are modelled as rationals (`ℚ`), the infinite sentinel
`float("inf")` as `⊤` in `WithTop ℚ`, and randomness as explicit oracle
streams supplied as function arguments.
-/

namespace X265

/-- Python float costs, with `⊤` standing for `float("inf")`. -/
abbrev Cost := WithTop ℚ

/-! ## Parameter / Module / SearchSpace  (src/core_refactor/params.py) -/

/-- One tunable knob: a name, an ordered candidate list and a current index
(`Parameter.__init__` stores `sorted(candidates)` and `current_idx`). -/
structure Parameter where
  name : String
  candidates : List ℚ
  idx : ℕ
deriving DecidableEq

/-- `Parameter.__init__`: the incoming candidate list is sorted ascending
before the index is stored (`self.candidates = sorted(candidates)`). -/
def Parameter.make (name : String) (candidates : List ℚ) (current_idx : ℕ) : Parameter :=
  ⟨name, candidates.insertionSort (· ≤ ·), current_idx⟩

/-- `Parameter.value`: `self.candidates[self.idx]` (out-of-range reads do not
occur on the paths we verify; `getD` supplies a dummy 0). -/
def Parameter.value (p : Parameter) : ℚ :=
  p.candidates.getD p.idx 0

/-- `Parameter.get_neighbors`: presence (and value) of the left and right
neighbour of the current index. -/
def Parameter.get_neighbors (p : Parameter) : Option ℚ × Option ℚ :=
  ((if 0 < p.idx then some (p.candidates.getD (p.idx - 1) 0) else none),
   (if p.idx + 1 < p.candidates.length then some (p.candidates.getD (p.idx + 1) 0) else none))

/-- `Parameter.move_index`: `new_idx = max(0, min(len(candidates) - 1, idx + step))`. -/
def Parameter.move_index (p : Parameter) (step : ℤ) : Parameter :=
  { p with idx := (max 0 (min ((p.candidates.length : ℤ) - 1) ((p.idx : ℤ) + step))).toNat }

/-- `Parameter.random_sample`: the uniform draw `random.randint(0, len-1)` is
supplied by the oracle `draw`, reduced into range. -/
def Parameter.random_sample (p : Parameter) (draw : ℕ) : Parameter :=
  { p with idx := draw % p.candidates.length }

/-- A module: a named group of parameters, the dual flag, and the optional
dependency predicate (mode value ↦ is the strength parameter active). -/
structure Module where
  name : String
  params : List Parameter
  is_dual : Bool
  dependency : Option (ℚ → Bool)

/-- `Module.is_strength_active`: consult the dependency predicate, default
`True` when none is declared. -/
def Module.is_strength_active (m : Module) (mode_value : ℚ) : Bool :=
  match m.dependency with
  | some d => d mode_value
  | none => true

/-- `Module.random_sample`: one oracle draw per parameter, in order. -/
def sampleParams : List Parameter → List ℕ → List Parameter
  | [], _ => []
  | p :: ps, ds => p.random_sample (ds.headD 0) :: sampleParams ps ds.tail

def Module.random_sample (m : Module) (ds : List ℕ) : Module :=
  { m with params := sampleParams m.params ds }

/-- The whole search space: the modules in insertion order. -/
abbrev Space := List Module

/-- A configuration snapshot: module name ↦ parameter name ↦ value
(`SearchSpace.get_all_config`). -/
abbrev Config := List (String × List (String × ℚ))

def get_all_config (sp : Space) : Config :=
  sp.map (fun m => (m.name, m.params.map (fun p => (p.name, p.value))))

/-- `SearchSpace.random_sample`: every parameter of every module is
re-drawn; the oracle supplies one draw list per module. -/
def Space.random_sample : Space → List (List ℕ) → Space
  | [], _ => []
  | m :: ms, dss => m.random_sample (dss.headD []) :: Space.random_sample ms dss.tail

/-! ## C10: the constructor sorts the candidate list -/

/-- In a sorted list, values at increasing in-bounds positions are non-decreasing. -/
lemma sorted_getD_mono (l : List ℚ) (h : l.Sorted (· ≤ ·)) (i j : ℕ) (hij : i ≤ j)
    (hj : j < l.length) : l.getD i 0 ≤ l.getD j 0 := by
  have hi : i < l.length := lt_of_le_of_lt hij hj
  rw [List.getD_eq_getElem _ _ hi, List.getD_eq_getElem _ _ hj]
  exact List.Sorted.rel_get_of_le h (a := ⟨i, hi⟩) (b := ⟨j, hj⟩) hij

/-- C10: `Parameter.__init__` re-sorts the supplied candidate list into
ascending order (a permutation of the input) before any index is
interpreted, the `current_idx` argument is stored as a position in that
sorted order, and `move_index(+1)` never yields a value smaller than the
value before the step. -/
theorem parameter_constructor_sorts (name : String) (cands : List ℚ) (i : ℕ) :
    (Parameter.make name cands i).candidates.Sorted (· ≤ ·) ∧
    (Parameter.make name cands i).candidates.Perm cands ∧
    (Parameter.make name cands i).idx = i ∧
    ((Parameter.make name cands i).idx < (Parameter.make name cands i).candidates.length →
      (Parameter.make name cands i).value ≤ ((Parameter.make name cands i).move_index 1).value) := by
  refine ⟨List.sorted_insertionSort _ cands, List.perm_insertionSort _ cands, rfl, ?_⟩
  intro hlt
  set l := (Parameter.make name cands i).candidates with hl
  have hsorted : l.Sorted (· ≤ ·) := List.sorted_insertionSort _ cands
  have hidx : (Parameter.make name cands i).idx = i := rfl
  rw [hidx] at hlt
  have hmove : ((Parameter.make name cands i).move_index 1).candidates = l := rfl
  have hmidx : ((Parameter.make name cands i).move_index 1).idx
      = (max 0 (min ((l.length : ℤ) - 1) ((i : ℤ) + 1))).toNat := rfl
  show l.getD i 0 ≤ l.getD ((max 0 (min ((l.length : ℤ) - 1) ((i : ℤ) + 1))).toNat) 0
  have hle : i ≤ (max 0 (min ((l.length : ℤ) - 1) ((i : ℤ) + 1))).toNat := by omega
  have hb : (max 0 (min ((l.length : ℤ) - 1) ((i : ℤ) + 1))).toNat < l.length := by omega
  exact sorted_getD_mono l hsorted _ _ hle hb

/-- C10 witness: `Parameter("p", [3,1,2], 0)` has value 1 (sorted order) and
stepping right moves to 2, not smaller. -/
theorem parameter_constructor_sorts_w :
    (Parameter.make "p" [3, 1, 2] 0).value ≤ ((Parameter.make "p" [3, 1, 2] 0).move_index 1).value :=
  (parameter_constructor_sorts "p" [3, 1, 2] 0).2.2.2 (by decide)

/-! ## RelevancyGuidedOptimizer  (src/core_refactor/algorithms.py)

The searches below are embedded at the granularity of one parameter's
index: the evaluator `e : ℕ → ℚ` gives the cost of the whole configuration
as a function of that parameter's index, everything else being held fixed
(the code calls `self.evaluator.evaluate(self.param_space.get_all_config(), videos)`
after moving just that index). -/

/-- The `while True` walk of `_directional_search` for direction −1:
from index `i` (the walk has already accepted `i+...`), repeatedly
`move_index(-1)`; at index 0 the move is a no-op and the walk stops;
a step that fails to improve is reverted. -/
def walkLeft (e : ℕ → ℚ) : ℕ → ℚ → ℕ × ℚ
  | 0, cost => (0, cost)
  | n + 1, cost =>
    if e n < cost then walkLeft e n (e n) else (n + 1, cost)

/-- The `while True` walk for direction +1, with `gap` the remaining
distance to the last index (a `move_index(1)` at the boundary is a no-op
and stops the walk). -/
def walkRight (e : ℕ → ℚ) : ℕ → ℕ → ℚ → ℕ × ℚ
  | 0, idx, cost => (idx, cost)
  | g + 1, idx, cost =>
    if e (idx + 1) < cost then walkRight e g (idx + 1) (e (idx + 1)) else (idx, cost)

/-- `RelevancyGuidedOptimizer._directional_search`: test the left
neighbour, else the right neighbour, and walk in the improving direction
until the cost stops decreasing (the failed step is reverted). Returns the
final index and cost. -/
def directional_search (len : ℕ) (e : ℕ → ℚ) (idx : ℕ) (cost : ℚ) : ℕ × ℚ :=
  if 0 < idx ∧ e (idx - 1) < cost then
    walkLeft e (idx - 1) (e (idx - 1))
  else if idx + 1 < len ∧ e (idx + 1) < cost then
    walkRight e (len - 1 - (idx + 1)) (idx + 1) (e (idx + 1))
  else (idx, cost)

/-- The `for i in range(len)` body of `_traversal_search`: skip the
original index, keep the first strictly-improving index. -/
def travGo (e : ℕ → ℚ) (orig : ℕ) : List ℕ → ℕ → ℚ → ℕ × ℚ
  | [], bIdx, bCost => (bIdx, bCost)
  | i :: rest, bIdx, bCost =>
    if i = orig then travGo e orig rest bIdx bCost
    else if e i < bCost then travGo e orig rest i (e i)
    else travGo e orig rest bIdx bCost

/-- `RelevancyGuidedOptimizer._traversal_search`: evaluate every candidate
index except the current one; keep the minimum observed cost. -/
def traversal_search (len : ℕ) (e : ℕ → ℚ) (idx : ℕ) (cost : ℚ) : ℕ × ℚ :=
  travGo e idx (List.range len) idx cost

/-- One round of `_optimize_dual_param_module`'s inner loop: directional
search on the strength index, then traversal search on the mode index
(the evaluator `E` takes the strength index and the mode index). -/
def dualRound (sLen mLen : ℕ) (E : ℕ → ℕ → ℚ) (s m : ℕ) (c : ℚ) : (ℕ × ℕ) × ℚ :=
  let r1 := directional_search sLen (fun i => E i m) s c
  let r2 := traversal_search mLen (fun j => E r1.1 j) m r1.2
  ((r1.1, r2.1), r2.2)

/-- The `while True` inner loop of `_optimize_dual_param_module`, breaking
when one full round changes the cost by less than `1e-6`. The code has no
iteration cap; the embedding uses fuel and returns `none` on exhaustion. -/
def dualLoop (sLen mLen : ℕ) (E : ℕ → ℕ → ℚ) : ℕ → ℕ → ℕ → ℚ → Option ((ℕ × ℕ) × ℚ)
  | 0, _, _, _ => none
  | fuel + 1, s, m, c =>
    let r := dualRound sLen mLen E s m c
    if |c - r.2| < 1 / 1000000 then some r
    else dualLoop sLen mLen E fuel r.1.1 r.1.2 r.2

/-- `RelevancyGuidedOptimizer._optimize_dual_param_module`: the parameter
with the shorter candidate list is the mode, the other the strength; then
the inner loop alternates directional search on strength and traversal
search on mode. The evaluator `E` takes the strength and mode values. Note
the code never consults `Module.is_strength_active`. Returns the final
(strength index, mode index) and cost. -/
def optimize_dual_param_module (fuel : ℕ) (m : Module) (E : ℚ → ℚ → ℚ) (cost : ℚ) :
    Option ((ℕ × ℕ) × ℚ) :=
  let p1 := m.params.getD 0 ⟨"", [], 0⟩
  let p2 := m.params.getD 1 ⟨"", [], 0⟩
  let pm := if p1.candidates.length < p2.candidates.length then p1 else p2
  let ps := if p1.candidates.length < p2.candidates.length then p2 else p1
  dualLoop ps.candidates.length pm.candidates.length
    (fun i j => E (ps.candidates.getD i 0) (pm.candidates.getD j 0))
    fuel ps.idx pm.idx cost

/-! ## Shape lemmas for the two 1-D searches -/

/-- The left walk never increases the cost, never increases the index, and
either returns its input unchanged or a position it actually evaluated. -/
lemma walkLeft_spec (e : ℕ → ℚ) : ∀ (i : ℕ) (c : ℚ),
    (walkLeft e i c).2 ≤ c ∧ (walkLeft e i c).1 ≤ i ∧
    (walkLeft e i c = (i, c) ∨ e (walkLeft e i c).1 = (walkLeft e i c).2) := by
  intro i
  induction i with
  | zero => intro c; exact ⟨le_rfl, le_rfl, Or.inl rfl⟩
  | succ n ih =>
    intro c
    by_cases h : e n < c
    · have hw : walkLeft e (n + 1) c = walkLeft e n (e n) := by
        simp only [walkLeft, if_pos h]
      obtain ⟨h1, h2, h3⟩ := ih (e n)
      refine ⟨hw ▸ h1.trans h.le, hw ▸ h2.trans (Nat.le_succ n), Or.inr ?_⟩
      rcases h3 with h3 | h3
      · rw [hw, h3]
      · rw [hw]; exact h3
    · have hw : walkLeft e (n + 1) c = (n + 1, c) := by
        simp only [walkLeft, if_neg h]
      exact ⟨hw ▸ le_rfl, hw ▸ le_rfl, Or.inl hw⟩

/-- Analogue of `walkLeft_spec` for the right walk: the final index stays
within `idx + gap`. -/
lemma walkRight_spec (e : ℕ → ℚ) : ∀ (g idx : ℕ) (c : ℚ),
    (walkRight e g idx c).2 ≤ c ∧ (walkRight e g idx c).1 ≤ idx + g ∧
    (walkRight e g idx c = (idx, c) ∨ e (walkRight e g idx c).1 = (walkRight e g idx c).2) := by
  intro g
  induction g with
  | zero => intro idx c; exact ⟨le_rfl, le_rfl, Or.inl rfl⟩
  | succ n ih =>
    intro idx c
    by_cases h : e (idx + 1) < c
    · have hw : walkRight e (n + 1) idx c = walkRight e n (idx + 1) (e (idx + 1)) := by
        simp only [walkRight, if_pos h]
      obtain ⟨h1, h2, h3⟩ := ih (idx + 1) (e (idx + 1))
      refine ⟨hw ▸ h1.trans h.le, hw ▸ h2.trans (by omega), Or.inr ?_⟩
      rcases h3 with h3 | h3
      · rw [hw, h3]
      · rw [hw]; exact h3
    · have hw : walkRight e (n + 1) idx c = (idx, c) := by
        simp only [walkRight, if_neg h]
      exact ⟨hw ▸ le_rfl, hw ▸ (by omega), Or.inl hw⟩

/-- Directional search never increases the cost, stays in bounds, and
either returns its input unchanged or lands on an evaluated position. -/
lemma directional_search_shape (len : ℕ) (e : ℕ → ℚ) (idx : ℕ) (c : ℚ) (hidx : idx < len) :
    (directional_search len e idx c).2 ≤ c ∧ (directional_search len e idx c).1 < len ∧
    (directional_search len e idx c = (idx, c) ∨
      e (directional_search len e idx c).1 = (directional_search len e idx c).2) := by
  unfold directional_search
  by_cases hL : 0 < idx ∧ e (idx - 1) < c
  · rw [if_pos hL]
    obtain ⟨h1, h2, h3⟩ := walkLeft_spec e (idx - 1) (e (idx - 1))
    refine ⟨h1.trans hL.2.le, by omega, Or.inr ?_⟩
    rcases h3 with h3 | h3
    · rw [h3]
    · exact h3
  · rw [if_neg hL]
    by_cases hR : idx + 1 < len ∧ e (idx + 1) < c
    · rw [if_pos hR]
      obtain ⟨h1, h2, h3⟩ := walkRight_spec e (len - 1 - (idx + 1)) (idx + 1) (e (idx + 1))
      refine ⟨h1.trans hR.2.le, by omega, Or.inr ?_⟩
      rcases h3 with h3 | h3
      · rw [h3]
      · exact h3
    · rw [if_neg hR]
      exact ⟨le_rfl, hidx, Or.inl rfl⟩

/-- The traversal fold never increases the tracked cost and either keeps
the incoming pair or lands on an evaluated member of the index list. -/
lemma travGo_spec (e : ℕ → ℚ) (orig : ℕ) : ∀ (l : List ℕ) (bIdx : ℕ) (bCost : ℚ),
    (travGo e orig l bIdx bCost).2 ≤ bCost ∧
    (travGo e orig l bIdx bCost = (bIdx, bCost) ∨
      ((travGo e orig l bIdx bCost).1 ∈ l ∧
        e (travGo e orig l bIdx bCost).1 = (travGo e orig l bIdx bCost).2)) := by
  intro l
  induction l with
  | nil => intro bIdx bCost; exact ⟨le_rfl, Or.inl rfl⟩
  | cons i rest ih =>
    intro bIdx bCost
    by_cases hi : i = orig
    · have hw : travGo e orig (i :: rest) bIdx bCost = travGo e orig rest bIdx bCost := by
        simp only [travGo, if_pos hi]
      obtain ⟨h1, h2⟩ := ih bIdx bCost
      refine ⟨hw ▸ h1, ?_⟩
      rcases h2 with h2 | h2
      · exact Or.inl (hw ▸ h2)
      · exact Or.inr ⟨by rw [hw]; exact List.mem_cons_of_mem _ h2.1, by rw [hw]; exact h2.2⟩
    · by_cases himp : e i < bCost
      · have hw : travGo e orig (i :: rest) bIdx bCost = travGo e orig rest i (e i) := by
          simp only [travGo, if_neg hi, if_pos himp]
        obtain ⟨h1, h2⟩ := ih i (e i)
        refine ⟨hw ▸ h1.trans himp.le, Or.inr ?_⟩
        rcases h2 with h2 | h2
        · rw [hw, h2]; exact ⟨List.mem_cons_self _ _, rfl⟩
        · exact ⟨by rw [hw]; exact List.mem_cons_of_mem _ h2.1, by rw [hw]; exact h2.2⟩
      · have hw : travGo e orig (i :: rest) bIdx bCost = travGo e orig rest bIdx bCost := by
          simp only [travGo, if_neg hi, if_neg himp]
        obtain ⟨h1, h2⟩ := ih bIdx bCost
        refine ⟨hw ▸ h1, ?_⟩
        rcases h2 with h2 | h2
        · exact Or.inl (hw ▸ h2)
        · exact Or.inr ⟨by rw [hw]; exact List.mem_cons_of_mem _ h2.1, by rw [hw]; exact h2.2⟩

/-- Traversal search never increases the cost, and either keeps the input
pair or lands on an evaluated in-range index. -/
lemma traversal_search_shape (len : ℕ) (e : ℕ → ℚ) (idx : ℕ) (c : ℚ) :
    (traversal_search len e idx c).2 ≤ c ∧
    (traversal_search len e idx c = (idx, c) ∨
      ((traversal_search len e idx c).1 < len ∧
        e (traversal_search len e idx c).1 = (traversal_search len e idx c).2)) := by
  obtain ⟨h1, h2⟩ := travGo_spec e idx (List.range len) idx c
  refine ⟨h1, ?_⟩
  rcases h2 with h2 | h2
  · exact Or.inl h2
  · exact Or.inr ⟨List.mem_range.mp h2.1, h2.2⟩

/-! ## C5: directional search never finishes worse than it started -/

/-- C5: for every deterministic evaluator and reachable starting index,
directional search returns a cost no worse than the starting cost and
leaves the index at a position whose evaluated cost equals the returned
cost (failed steps are rolled back). -/
theorem directional_search_monotone (len : ℕ) (e : ℕ → ℚ) (idx : ℕ) (c : ℚ)
    (hidx : idx < len) (hc : e idx = c) :
    (directional_search len e idx c).2 ≤ c ∧
    e (directional_search len e idx c).1 = (directional_search len e idx c).2 ∧
    (directional_search len e idx c).1 < len := by
  obtain ⟨h1, h2, h3⟩ := directional_search_shape len e idx c hidx
  refine ⟨h1, ?_, h2⟩
  rcases h3 with h3 | h3
  · rw [h3]; exact hc
  · exact h3

/-- C5 witness: on `e i = -i` over three candidates, starting at index 1
with cost −1, the search walks right to index 2 with cost −2 = e 2 ≤ −1. -/
theorem directional_search_monotone_w :
    (directional_search 3 (fun i => -(i : ℚ)) 1 (-1)).2 ≤ -1 ∧
    (fun i => -(i : ℚ)) (directional_search 3 (fun i => -(i : ℚ)) 1 (-1)).1 =
      (directional_search 3 (fun i => -(i : ℚ)) 1 (-1)).2 ∧
    (directional_search 3 (fun i => -(i : ℚ)) 1 (-1)).1 < 3 :=
  directional_search_monotone 3 (fun i => -(i : ℚ)) 1 (-1) (by decide) (by norm_num)

/-! ## C8: the dual-parameter inner loop terminates -/

/-- Directional search never increases the cost, with no side conditions. -/
lemma directional_search_cost_le (len : ℕ) (e : ℕ → ℚ) (idx : ℕ) (c : ℚ) :
    (directional_search len e idx c).2 ≤ c := by
  unfold directional_search
  by_cases hL : 0 < idx ∧ e (idx - 1) < c
  · rw [if_pos hL]
    exact (walkLeft_spec e (idx - 1) (e (idx - 1))).1.trans hL.2.le
  · rw [if_neg hL]
    by_cases hR : idx + 1 < len ∧ e (idx + 1) < c
    · rw [if_pos hR]
      exact (walkRight_spec e (len - 1 - (idx + 1)) (idx + 1) (e (idx + 1))).1.trans hR.2.le
    · rw [if_neg hR]

/-- One inner round never increases the module cost. -/
lemma dualRound_cost_le (sLen mLen : ℕ) (E : ℕ → ℕ → ℚ) (s m : ℕ) (c : ℚ) :
    (dualRound sLen mLen E s m c).2 ≤ c := by
  have h2 : (dualRound sLen mLen E s m c).2
      = (traversal_search mLen (fun j => E (directional_search sLen (fun i => E i m) s c).1 j) m
          (directional_search sLen (fun i => E i m) s c).2).2 := rfl
  rw [h2]
  exact (traversal_search_shape mLen _ m _).1.trans (directional_search_cost_le sLen _ s c)

/-- One inner round keeps both indices in bounds. -/
lemma dualRound_bounds (sLen mLen : ℕ) (E : ℕ → ℕ → ℚ) (s m : ℕ) (c : ℚ)
    (hs : s < sLen) (hm : m < mLen) :
    (dualRound sLen mLen E s m c).1.1 < sLen ∧ (dualRound sLen mLen E s m c).1.2 < mLen := by
  have h1 : (dualRound sLen mLen E s m c).1.1 = (directional_search sLen (fun i => E i m) s c).1 :=
    rfl
  have h2 : (dualRound sLen mLen E s m c).1.2
      = (traversal_search mLen (fun j => E (directional_search sLen (fun i => E i m) s c).1 j) m
          (directional_search sLen (fun i => E i m) s c).2).1 := rfl
  rw [h1, h2]
  obtain ⟨-, hdb, -⟩ := directional_search_shape sLen (fun i => E i m) s c hs
  obtain ⟨-, ht⟩ := traversal_search_shape mLen
    (fun j => E (directional_search sLen (fun i => E i m) s c).1 j) m
    (directional_search sLen (fun i => E i m) s c).2
  refine ⟨hdb, ?_⟩
  rcases ht with ht | ht
  · rw [ht]
    exact hm
  · exact ht.1

/-- One inner round either keeps the cost or produces the evaluation of
some in-bounds index pair. -/
lemma dualRound_cost_mem (sLen mLen : ℕ) (E : ℕ → ℕ → ℚ) (s m : ℕ) (c : ℚ)
    (hs : s < sLen) (hm : m < mLen) :
    (dualRound sLen mLen E s m c).2 = c ∨
    ∃ i j, i < sLen ∧ j < mLen ∧ (dualRound sLen mLen E s m c).2 = E i j := by
  have h2 : (dualRound sLen mLen E s m c).2
      = (traversal_search mLen (fun j => E (directional_search sLen (fun i => E i m) s c).1 j) m
          (directional_search sLen (fun i => E i m) s c).2).2 := rfl
  rw [h2]
  obtain ⟨-, hdb, hd3⟩ := directional_search_shape sLen (fun i => E i m) s c hs
  obtain ⟨-, ht⟩ := traversal_search_shape mLen
    (fun j => E (directional_search sLen (fun i => E i m) s c).1 j) m
    (directional_search sLen (fun i => E i m) s c).2
  rcases ht with ht | ht
  · rw [ht]
    rcases hd3 with hd3 | hd3
    · rw [hd3]
      exact Or.inl rfl
    · exact Or.inr ⟨_, m, hdb, hm, hd3.symm⟩
  · exact Or.inr ⟨_, _, hdb, ht.1, ht.2.symm⟩

/-- Costs produced by rounds live in the finite image of `E` over the
bounded index grid; each non-converged round strictly shrinks the set of
grid costs below the current cost, so the loop converges with some fuel. -/
lemma dualLoop_reaches (sLen mLen : ℕ) (E : ℕ → ℕ → ℚ) :
    ∀ (k : ℕ) (s m : ℕ) (c : ℚ), s < sLen → m < mLen →
    Finset.card (Finset.filter (fun v => v < c)
      (Finset.image (fun p : ℕ × ℕ => E p.1 p.2) ((Finset.range sLen) ×ˢ (Finset.range mLen)))) ≤ k →
    ∃ fuel, (dualLoop sLen mLen E fuel s m c).isSome := by
  intro k
  induction k with
  | zero =>
    intro s m c hs hm hcard
    by_cases hconv : |c - (dualRound sLen mLen E s m c).2| < 1 / 1000000
    · refine ⟨1, ?_⟩
      simp only [dualLoop, if_pos hconv, Option.isSome_some]
    · exfalso
      have hle := dualRound_cost_le sLen mLen E s m c
      have hlt : (dualRound sLen mLen E s m c).2 < c := by
        rcases lt_or_eq_of_le hle with h | h
        · exact h
        · exfalso
          apply hconv
          rw [abs_of_nonneg (sub_nonneg.mpr hle), h, sub_self]
          norm_num
      rcases dualRound_cost_mem sLen mLen E s m c hs hm with hmem | ⟨i, j, hi, hj, hmem⟩
      · rw [hmem] at hlt
        exact lt_irrefl _ hlt
      · have hin : (dualRound sLen mLen E s m c).2 ∈ Finset.filter (fun v => v < c)
            (Finset.image (fun p : ℕ × ℕ => E p.1 p.2)
              ((Finset.range sLen) ×ˢ (Finset.range mLen))) := by
          refine Finset.mem_filter.mpr ⟨Finset.mem_image.mpr ⟨(i, j), ?_, hmem.symm⟩, hlt⟩
          exact Finset.mem_product.mpr ⟨Finset.mem_range.mpr hi, Finset.mem_range.mpr hj⟩
        have hpos : 0 < Finset.card (Finset.filter (fun v => v < c)
            (Finset.image (fun p : ℕ × ℕ => E p.1 p.2)
              ((Finset.range sLen) ×ˢ (Finset.range mLen)))) :=
          Finset.card_pos.mpr ⟨_, hin⟩
        omega
  | succ n ih =>
    intro s m c hs hm hcard
    by_cases hconv : |c - (dualRound sLen mLen E s m c).2| < 1 / 1000000
    · refine ⟨1, ?_⟩
      simp only [dualLoop, if_pos hconv, Option.isSome_some]
    · have hle := dualRound_cost_le sLen mLen E s m c
      have hlt : (dualRound sLen mLen E s m c).2 < c := by
        rcases lt_or_eq_of_le hle with h | h
        · exact h
        · exfalso
          apply hconv
          rw [abs_of_nonneg (sub_nonneg.mpr hle), h, sub_self]
          norm_num
      obtain ⟨hbs, hbm⟩ := dualRound_bounds sLen mLen E s m c hs hm
      have hmem : (dualRound sLen mLen E s m c).2 ∈ Finset.filter (fun v => v < c)
          (Finset.image (fun p : ℕ × ℕ => E p.1 p.2)
            ((Finset.range sLen) ×ˢ (Finset.range mLen))) := by
        rcases dualRound_cost_mem sLen mLen E s m c hs hm with hmm | ⟨i, j, hi, hj, hmm⟩
        · rw [hmm] at hlt
          exact absurd hlt (lt_irrefl c)
        · refine Finset.mem_filter.mpr ⟨Finset.mem_image.mpr ⟨(i, j), ?_, hmm.symm⟩, hlt⟩
          exact Finset.mem_product.mpr ⟨Finset.mem_range.mpr hi, Finset.mem_range.mpr hj⟩
      have hss : Finset.filter (fun v => v < (dualRound sLen mLen E s m c).2)
            (Finset.image (fun p : ℕ × ℕ => E p.1 p.2)
              ((Finset.range sLen) ×ˢ (Finset.range mLen))) ⊂
          Finset.filter (fun v => v < c)
            (Finset.image (fun p : ℕ × ℕ => E p.1 p.2)
              ((Finset.range sLen) ×ˢ (Finset.range mLen))) := by
        refine (Finset.ssubset_iff_of_subset ?_).mpr ⟨_, hmem, ?_⟩
        · intro v hv
          obtain ⟨hv1, hv2⟩ := Finset.mem_filter.mp hv
          exact Finset.mem_filter.mpr ⟨hv1, lt_trans hv2 hlt⟩
        · intro hvin
          exact lt_irrefl _ (Finset.mem_filter.mp hvin).2
      have hcard' := Finset.card_lt_card hss
      obtain ⟨f, hf⟩ := ih (dualRound sLen mLen E s m c).1.1 (dualRound sLen mLen E s m c).1.2
        (dualRound sLen mLen E s m c).2 hbs hbm (by omega)
      refine ⟨f + 1, ?_⟩
      have hstep : dualLoop sLen mLen E (f + 1) s m c
          = dualLoop sLen mLen E f (dualRound sLen mLen E s m c).1.1
              (dualRound sLen mLen E s m c).1.2 (dualRound sLen mLen E s m c).2 := by
        simp only [dualLoop, if_neg hconv]
      rw [hstep]
      exact hf

/-- For every deterministic evaluator with finite (non-sentinel) costs the
inner loop reaches, after finitely many rounds, a round whose cost change
is below `1e-6`: some fuel makes `dualLoop` return. This does NOT extend
to evaluators producing the `float("inf")` sentinel — see
`dual_loop_diverges_on_sentinel` below. -/
theorem dual_param_inner_loop_terminates (sLen mLen : ℕ) (E : ℕ → ℕ → ℚ) (s m : ℕ) (c : ℚ)
    (hs : s < sLen) (hm : m < mLen) :
    ∃ fuel, (dualLoop sLen mLen E fuel s m c).isSome :=
  dualLoop_reaches sLen mLen E _ s m c hs hm le_rfl

theorem dual_param_inner_loop_terminates_w :
    ∃ fuel, (dualLoop 1 1 (fun _ _ => (0 : ℚ)) fuel 0 0 0).isSome :=
  dual_param_inner_loop_terminates 1 1 (fun _ _ => (0 : ℚ)) 0 0 0 (by decide) (by decide)

/-! ## C8 over the full float cost model, sentinel included

`evaluate()` can return `float("inf")` (failed or pruned measurements);
the searches and the inner loop run on those raw float costs. The
definitions below repeat the search embedding over `Cost = WithTop ℚ`.
The loop's break test `abs(prev_cost - local_cost) < 1e-6` is modelled by
`convergedTest`: in Python every arithmetic involving `inf` on both sides
gives `nan` (and `inf` on one side gives `inf`), and both `nan < 1e-6`
and `inf < 1e-6` are `False`, so the test holds only for finite costs. -/

def walkLeftC (e : ℕ → Cost) : ℕ → Cost → ℕ × Cost
  | 0, cost => (0, cost)
  | n + 1, cost =>
    if e n < cost then walkLeftC e n (e n) else (n + 1, cost)

def walkRightC (e : ℕ → Cost) : ℕ → ℕ → Cost → ℕ × Cost
  | 0, idx, cost => (idx, cost)
  | g + 1, idx, cost =>
    if e (idx + 1) < cost then walkRightC e g (idx + 1) (e (idx + 1)) else (idx, cost)

def directional_searchC (len : ℕ) (e : ℕ → Cost) (idx : ℕ) (cost : Cost) : ℕ × Cost :=
  if 0 < idx ∧ e (idx - 1) < cost then
    walkLeftC e (idx - 1) (e (idx - 1))
  else if idx + 1 < len ∧ e (idx + 1) < cost then
    walkRightC e (len - 1 - (idx + 1)) (idx + 1) (e (idx + 1))
  else (idx, cost)

def travGoC (e : ℕ → Cost) (orig : ℕ) : List ℕ → ℕ → Cost → ℕ × Cost
  | [], bIdx, bCost => (bIdx, bCost)
  | i :: rest, bIdx, bCost =>
    if i = orig then travGoC e orig rest bIdx bCost
    else if e i < bCost then travGoC e orig rest i (e i)
    else travGoC e orig rest bIdx bCost

def traversal_searchC (len : ℕ) (e : ℕ → Cost) (idx : ℕ) (c : Cost) : ℕ × Cost :=
  travGoC e idx (List.range len) idx c

def dualRoundC (sLen mLen : ℕ) (E : ℕ → ℕ → Cost) (s m : ℕ) (c : Cost) : (ℕ × ℕ) × Cost :=
  let r1 := directional_searchC sLen (fun i => E i m) s c
  let r2 := traversal_searchC mLen (fun j => E r1.1 j) m r1.2
  ((r1.1, r2.1), r2.2)

/-- `abs(prev_cost - local_cost) < 1e-6` on Python floats: `False`
whenever either side is the infinite sentinel (`inf - inf = nan`,
`inf - finite = inf`, and neither `nan` nor `inf` is `< 1e-6`). -/
def convergedTest (prev new : Cost) : Bool :=
  match prev, new with
  | some p, some n => decide (|p - n| < 1 / 1000000)
  | _, _ => false

def dualLoopC (sLen mLen : ℕ) (E : ℕ → ℕ → Cost) : ℕ → ℕ → ℕ → Cost → Option ((ℕ × ℕ) × Cost)
  | 0, _, _, _ => none
  | fuel + 1, s, m, c =>
    let r := dualRoundC sLen mLen E s m c
    if convergedTest c r.2 then some r
    else dualLoopC sLen mLen E fuel r.1.1 r.1.2 r.2

/-- Under the all-sentinel evaluator the traversal fold never moves. -/
lemma travGoC_top (orig : ℕ) : ∀ (l : List ℕ) (bIdx : ℕ),
    travGoC (fun _ => (⊤ : Cost)) orig l bIdx ⊤ = (bIdx, ⊤) := by
  intro l
  induction l with
  | nil => intro bIdx; rfl
  | cons i rest ih =>
    intro bIdx
    by_cases hi : i = orig
    · simp only [travGoC, if_pos hi]
      exact ih bIdx
    · simp only [travGoC, if_neg hi, if_neg (lt_irrefl (⊤ : Cost))]
      exact ih bIdx

/-- Under the all-sentinel evaluator one inner round is the identity:
no neighbour ever satisfies `inf < inf`, so both searches stay put. -/
lemma dualRoundC_top (sLen mLen : ℕ) (s m : ℕ) :
    dualRoundC sLen mLen (fun _ _ => (⊤ : Cost)) s m ⊤ = ((s, m), ⊤) := by
  have hdir : directional_searchC sLen (fun _ => (⊤ : Cost)) s ⊤ = (s, ⊤) := by
    unfold directional_searchC
    rw [if_neg (fun h => lt_irrefl _ h.2), if_neg (fun h => lt_irrefl _ h.2)]
  have htrav : traversal_searchC mLen (fun _ => (⊤ : Cost)) m ⊤ = (m, ⊤) :=
    travGoC_top m (List.range mLen) m
  simp only [dualRoundC]
  rw [hdir]
  simp [htrav]

/-- C8 (code bug): with the evaluator that returns the infinite sentinel
on every configuration — exactly what `evaluate()` yields when every
measurement fails or is pruned — each round leaves the cost `inf`, the
break test `abs(inf - inf) < 1e-6` is `nan < 1e-6 = False` forever, and
the inner loop never exits: no amount of fuel makes it return. -/
theorem dual_loop_diverges_on_sentinel (sLen mLen : ℕ) :
    ∀ (fuel s m : ℕ), dualLoopC sLen mLen (fun _ _ => (⊤ : Cost)) fuel s m ⊤ = none := by
  intro fuel
  induction fuel with
  | zero => intro s m; rfl
  | succ f ih =>
    intro s m
    have hround := dualRoundC_top sLen mLen s m
    have hstep : dualLoopC sLen mLen (fun _ _ => (⊤ : Cost)) (f + 1) s m ⊤
        = if convergedTest ⊤ (dualRoundC sLen mLen (fun _ _ => (⊤ : Cost)) s m ⊤).2
          then some (dualRoundC sLen mLen (fun _ _ => (⊤ : Cost)) s m ⊤)
          else dualLoopC sLen mLen (fun _ _ => (⊤ : Cost)) f
            (dualRoundC sLen mLen (fun _ _ => (⊤ : Cost)) s m ⊤).1.1
            (dualRoundC sLen mLen (fun _ _ => (⊤ : Cost)) s m ⊤).1.2
            (dualRoundC sLen mLen (fun _ _ => (⊤ : Cost)) s m ⊤).2 := rfl
    rw [hstep, hround]
    simp only [convergedTest, Bool.false_eq_true, if_false]
    exact ih s m

/-! ## C1: the dependency gating is never consulted by the optimizer -/

/-- A dual module whose dependency predicate disables strength when the
mode value is 0 (the shape of `vaq` / `psyrdoq` in `params.py`), with the
mode at value 0 and the strength at index 0. -/
def gatedModule : Module :=
  { name := "vaq"
    params := [Parameter.make "aq-mode" [0, 1] 0, Parameter.make "aq-strength" [0, 1, 2] 0]
    is_dual := true
    dependency := some (fun v => decide (v ≠ 0)) }

/-- C1 (code bug): with the mode at value 0 the dependency predicate
reports strength inactive, yet `_optimize_dual_param_module` — which never
calls `Module.is_strength_active` — still runs directional search on the
strength parameter: under an evaluator whose cost decreases in the
strength value even at mode 0, the strength index moves from 0 to 2
instead of staying unchanged. -/
theorem dual_loop_ignores_dependency_gating :
    gatedModule.is_strength_active ((gatedModule.params.getD 0 ⟨"", [], 0⟩).value) = false ∧
    (gatedModule.params.getD 1 ⟨"", [], 0⟩).idx = 0 ∧
    optimize_dual_param_module 5 gatedModule (fun s _ => -s) 0 = some ((2, 0), -2) := by
  refine ⟨?_, ?_, ?_⟩
  · norm_num [gatedModule, Module.is_strength_active, Parameter.make, Parameter.value,
      List.insertionSort, List.orderedInsert]
  · norm_num [gatedModule, Parameter.make, List.insertionSort, List.orderedInsert]
  · norm_num [optimize_dual_param_module, gatedModule, Parameter.make, List.insertionSort,
      List.orderedInsert, dualLoop, dualRound, directional_search, traversal_search, travGo,
      walkLeft, walkRight, List.range_succ]

/-! ## X265CostEvaluator  (src/core_refactor/cost.py)

`evaluate` keys its cache by
`frozenset((m, frozenset(p.items())) for m, p in params.items())`; the
expensive measurement `_parallel_calculate_rd_loss` reads the evaluator's
running `global_min_cost`, so it is modelled as a function of that bound.
`CostCalculator.calculate_cost` in `src/core/cost_calculator.py` has the
same cache-then-measure-then-update-best structure. -/

/-- The order-independent cache key (Python nested `frozenset`). -/
abbrev Fingerprint := Finset (String × Finset (String × ℚ))

def fingerprint (cfg : Config) : Fingerprint :=
  (cfg.map (fun mp => (mp.1, mp.2.toFinset))).toFinset

/-- Evaluator state: the fingerprint cache, the running global best and the
count of expensive measurements (`self.eval_count`, incremented exactly
when the measurement runs). -/
structure EvalState where
  cache : List (Fingerprint × Cost)
  global_min_cost : Cost
  eval_count : ℕ
deriving DecidableEq

def cacheLookup : List (Fingerprint × Cost) → Fingerprint → Option Cost
  | [], _ => none
  | (k, c) :: rest, key => if k = key then some c else cacheLookup rest key

/-- `X265CostEvaluator.evaluate`: return the cached cost on a fingerprint
hit; otherwise run the measurement, cache the result (including the
infinite sentinel) and update the global best. -/
def evaluate (measure : Cost → Config → Cost) (st : EvalState) (cfg : Config) :
    Cost × EvalState :=
  match cacheLookup st.cache (fingerprint cfg) with
  | some c => (c, st)
  | none =>
    let cost := measure st.global_min_cost cfg
    let newMin := if cost < st.global_min_cost then cost else st.global_min_cost
    (cost, ⟨(fingerprint cfg, cost) :: st.cache, newMin, st.eval_count + 1⟩)

/-- `_calculate_group_loss` numerator: per-video losses summed, `None`
(a failed video) propagating to the whole group. -/
def groupLossAux (vl : ℕ → Option ℚ) : List ℕ → Option ℚ
  | [] => some 0
  | v :: rest =>
    match vl v, groupLossAux vl rest with
    | some x, some s => some (x + s)
    | _, _ => none

/-- `X265CostEvaluator._calculate_group_loss`: the group average, `none` on
any failed video. -/
def calculate_group_loss (vl : ℕ → Option ℚ) (group : List ℕ) : Option ℚ :=
  (groupLossAux vl group).map (fun s => s / (group.length : ℚ))

/-- The between-group pruning test: only when the global best is finite,
compare the running average against twice the global best. -/
def pruneCheck (gmin : Cost) (total : ℚ) (count : ℕ) : Bool :=
  match gmin with
  | none => false
  | some q => decide (total / (count : ℚ) > 2 * q)

/-- The `for group in [group1, group2]` loop of
`_parallel_calculate_rd_loss`: skip empty groups; when pruning is allowed
and a previous group is on the books, abort with the infinite sentinel if
the running average exceeds `2 × global_min_cost`; a failed group also
yields the sentinel; otherwise accumulate and finish with the average.
The second component records which groups were actually measured. -/
def rdLossLoop (allowPruning : Bool) (gmin : Cost) (vl : ℕ → Option ℚ) :
    List (List ℕ) → ℚ → ℕ → List (List ℕ) → Cost × List (List ℕ)
  | [], total, count, evaled =>
    (if 0 < count then ((total / (count : ℚ) : ℚ) : Cost) else ⊤, evaled)
  | g :: rest, total, count, evaled =>
    if g = [] then rdLossLoop allowPruning gmin vl rest total count evaled
    else if allowPruning && decide (0 < count) && pruneCheck gmin total count then (⊤, evaled)
    else
      match calculate_group_loss vl g with
      | none => (⊤, evaled ++ [g])
      | some gl => rdLossLoop allowPruning gmin vl rest (total + gl) (count + 1) (evaled ++ [g])

/-- `X265CostEvaluator._parallel_calculate_rd_loss`: the workload is split
into `videos[:11]` and `videos[11:]`, run in that order. -/
def parallel_calculate_rd_loss (allowPruning : Bool) (gmin : Cost) (vl : ℕ → Option ℚ)
    (videos : List ℕ) : Cost × List (List ℕ) :=
  rdLossLoop allowPruning gmin vl [videos.take 11, videos.drop 11] 0 0 []

/-! ## C4: a repeated fingerprint never re-measures -/

/-- C4: two `evaluate()` calls whose configurations have the same
fingerprint (same module/parameter/value contents, key order ignored) run
the expensive measurement at most once: the second call returns the first
call's cost — infinite sentinel included — and leaves the state (in
particular `eval_count`) untouched. Moreover the first call caches its
cost under that fingerprint, interleaved calls for other configurations
preserve every cache entry, and any call whose fingerprint is cached is a
pure cache hit — so the guarantee holds for any pair of calls in one run,
not only adjacent ones. -/
theorem evaluate_cache_hit (measure : Cost → Config → Cost) (st0 : EvalState)
    (cfg1 cfg2 : Config) (hfp : fingerprint cfg1 = fingerprint cfg2) :
    ((evaluate measure (evaluate measure st0 cfg1).2 cfg2).1 = (evaluate measure st0 cfg1).1 ∧
     (evaluate measure (evaluate measure st0 cfg1).2 cfg2).2 = (evaluate measure st0 cfg1).2 ∧
     (evaluate measure (evaluate measure st0 cfg1).2 cfg2).2.eval_count
       = (evaluate measure st0 cfg1).2.eval_count) ∧
    cacheLookup (evaluate measure st0 cfg1).2.cache (fingerprint cfg2)
      = some (evaluate measure st0 cfg1).1 ∧
    (∀ (st : EvalState) (cfg : Config) (k : Fingerprint) (c : Cost),
      cacheLookup st.cache k = some c →
      cacheLookup (evaluate measure st cfg).2.cache k = some c) ∧
    (∀ (st : EvalState) (c : Cost),
      cacheLookup st.cache (fingerprint cfg2) = some c →
      evaluate measure st cfg2 = (c, st)) := by
  refine ⟨?_, ?_, ?_, ?_⟩
  case refine_2 =>
    cases h : cacheLookup st0.cache (fingerprint cfg1) with
    | some c =>
      have h1 : evaluate measure st0 cfg1 = (c, st0) := by
        simp only [evaluate, h]
      rw [h1, ← hfp]
      exact h
    | none =>
      have h1 : evaluate measure st0 cfg1
          = (measure st0.global_min_cost cfg1,
             ⟨(fingerprint cfg1, measure st0.global_min_cost cfg1) :: st0.cache,
              if measure st0.global_min_cost cfg1 < st0.global_min_cost then
                measure st0.global_min_cost cfg1 else st0.global_min_cost,
              st0.eval_count + 1⟩) := by
        simp only [evaluate, h]
      rw [h1, ← hfp]
      simp only [cacheLookup, if_pos rfl, if_true]
  case refine_3 =>
    intro st cfg k c hk
    cases h : cacheLookup st.cache (fingerprint cfg) with
    | some c' =>
      have h1 : evaluate measure st cfg = (c', st) := by
        simp only [evaluate, h]
      rw [h1]
      exact hk
    | none =>
      have hne : fingerprint cfg ≠ k := by
        intro heq
        rw [heq, hk] at h
        exact Option.noConfusion h
      have h1 : (evaluate measure st cfg).2.cache
          = (fingerprint cfg, measure st.global_min_cost cfg) :: st.cache := by
        simp only [evaluate, h]
      rw [h1]
      simp only [cacheLookup, if_neg hne]
      exact hk
  case refine_4 =>
    intro st c hk
    simp only [evaluate, hk]
  have hmain : (evaluate measure (evaluate measure st0 cfg1).2 cfg2)
      = ((evaluate measure st0 cfg1).1, (evaluate measure st0 cfg1).2) := by
    cases h : cacheLookup st0.cache (fingerprint cfg1) with
    | some c =>
      have h1 : evaluate measure st0 cfg1 = (c, st0) := by
        simp only [evaluate, h]
      rw [h1]
      simp only [evaluate, ← hfp, h]
    | none =>
      have h1 : evaluate measure st0 cfg1
          = (measure st0.global_min_cost cfg1,
             ⟨(fingerprint cfg1, measure st0.global_min_cost cfg1) :: st0.cache,
              if measure st0.global_min_cost cfg1 < st0.global_min_cost then
                measure st0.global_min_cost cfg1 else st0.global_min_cost,
              st0.eval_count + 1⟩) := by
        simp only [evaluate, h]
      rw [h1]
      simp only [evaluate, cacheLookup, ← hfp, if_pos rfl, if_true]
  exact ⟨by rw [hmain], by rw [hmain], by rw [hmain]⟩

/-- C4 witness: two key-permuted configurations share a fingerprint, and
with a measurement that fails (returns the sentinel) the second call is a
pure cache hit. -/
theorem evaluate_cache_hit_w :
    (evaluate (fun _ _ => (⊤ : Cost))
        (evaluate (fun _ _ => (⊤ : Cost)) ⟨[], ⊤, 0⟩
          [("a", [("x", 1), ("y", 2)]), ("b", [])]).2
        [("b", []), ("a", [("y", 2), ("x", 1)])]).1
      = (evaluate (fun _ _ => (⊤ : Cost)) ⟨[], ⊤, 0⟩
          [("a", [("x", 1), ("y", 2)]), ("b", [])]).1 ∧
    (evaluate (fun _ _ => (⊤ : Cost))
        (evaluate (fun _ _ => (⊤ : Cost)) ⟨[], ⊤, 0⟩
          [("a", [("x", 1), ("y", 2)]), ("b", [])]).2
        [("b", []), ("a", [("y", 2), ("x", 1)])]).2
      = (evaluate (fun _ _ => (⊤ : Cost)) ⟨[], ⊤, 0⟩
          [("a", [("x", 1), ("y", 2)]), ("b", [])]).2 ∧
    (evaluate (fun _ _ => (⊤ : Cost))
        (evaluate (fun _ _ => (⊤ : Cost)) ⟨[], ⊤, 0⟩
          [("a", [("x", 1), ("y", 2)]), ("b", [])]).2
        [("b", []), ("a", [("y", 2), ("x", 1)])]).2.eval_count
      = (evaluate (fun _ _ => (⊤ : Cost)) ⟨[], ⊤, 0⟩
          [("a", [("x", 1), ("y", 2)]), ("b", [])]).2.eval_count :=
  (evaluate_cache_hit (fun _ _ => (⊤ : Cost)) ⟨[], ⊤, 0⟩
    [("a", [("x", 1), ("y", 2)]), ("b", [])]
    [("b", []), ("a", [("y", 2), ("x", 1)])] (by decide)).1

/-! ## C6: the pruning toggle -/

/-- C6: with pruning enabled, a finite pre-seeded global best `b`, and a
first group whose average `a1` exceeds `2·b`, the measurement returns the
infinite sentinel without ever evaluating the (non-empty) second group —
and `evaluate()` surfaces that sentinel; with pruning disabled, both
groups are evaluated and the finite average over both is returned. -/
theorem pruning_toggle (b a1 a2 : ℚ) (vl : ℕ → Option ℚ) (videos : List ℕ)
    (st : EvalState) (cfg : Config)
    (hg1 : videos.take 11 ≠ []) (hg2 : videos.drop 11 ≠ [])
    (hl1 : calculate_group_loss vl (videos.take 11) = some a1)
    (hl2 : calculate_group_loss vl (videos.drop 11) = some a2)
    (hex : 2 * b < a1)
    (hcache : cacheLookup st.cache (fingerprint cfg) = none)
    (hmin : st.global_min_cost = (b : Cost)) :
    (parallel_calculate_rd_loss true (b : Cost) vl videos).1 = ⊤ ∧
    (parallel_calculate_rd_loss true (b : Cost) vl videos).2 = [videos.take 11] ∧
    (evaluate (fun gmin _ => (parallel_calculate_rd_loss true gmin vl videos).1) st cfg).1 = ⊤ ∧
    (parallel_calculate_rd_loss false (b : Cost) vl videos).1 = (((a1 + a2) / 2 : ℚ) : Cost) ∧
    (parallel_calculate_rd_loss false (b : Cost) vl videos).2
      = [videos.take 11, videos.drop 11] := by
  have hprune : pruneCheck (b : Cost) (0 + a1) 1 = true := by
    have : (0 + a1) / ((1 : ℕ) : ℚ) > 2 * b := by
      rw [zero_add, Nat.cast_one, div_one]
      exact hex
    simp only [pruneCheck, WithTop.some_eq_coe]
    exact decide_eq_true this
  have htrue : parallel_calculate_rd_loss true (b : Cost) vl videos = (⊤, [videos.take 11]) := by
    unfold parallel_calculate_rd_loss
    rw [rdLossLoop, if_neg hg1]
    simp only [decide_eq_true_eq, Nat.lt_irrefl, decide_False, Bool.and_false, Bool.false_and,
      Bool.false_eq_true, if_false, hl1]
    rw [rdLossLoop, if_neg hg2]
    simp only [Nat.zero_lt_one, decide_True, Bool.and_true, Bool.true_and, hprune, if_true,
      List.nil_append]
    norm_num
  have hfalse : parallel_calculate_rd_loss false (b : Cost) vl videos
      = ((((0 + a1 + a2) / ((2 : ℕ) : ℚ) : ℚ) : Cost), [videos.take 11, videos.drop 11]) := by
    unfold parallel_calculate_rd_loss
    rw [rdLossLoop, if_neg hg1]
    simp only [Bool.false_and, Bool.false_eq_true, if_false, hl1]
    rw [rdLossLoop, if_neg hg2]
    simp only [Bool.false_and, Bool.false_eq_true, if_false, hl2]
    rw [rdLossLoop]
    simp only [Nat.zero_lt_succ, if_pos, List.nil_append, List.cons_append, List.nil_append]
  refine ⟨by rw [htrue], by rw [htrue], ?_, ?_, by rw [hfalse]⟩
  · simp only [evaluate, hcache, hmin]
    rw [htrue]
  · rw [hfalse]
    norm_num

/-- C6 witness: twelve videos of cost 5 each (group averages 5 and 5) with
a pre-seeded global best of 1: pruning yields the sentinel after group 1;
no pruning yields the finite average 5. -/
theorem pruning_toggle_w :
    (parallel_calculate_rd_loss true ((1 : ℚ) : Cost) (fun _ => some 5)
        [0, 1, 2, 3, 4, 5, 6, 7, 8, 9, 10, 11]).1 = ⊤ ∧
    (parallel_calculate_rd_loss true ((1 : ℚ) : Cost) (fun _ => some 5)
        [0, 1, 2, 3, 4, 5, 6, 7, 8, 9, 10, 11]).2
      = [[0, 1, 2, 3, 4, 5, 6, 7, 8, 9, 10, 11].take 11] ∧
    (evaluate (fun gmin _ => (parallel_calculate_rd_loss true gmin (fun _ => some 5)
          [0, 1, 2, 3, 4, 5, 6, 7, 8, 9, 10, 11]).1)
        ⟨[], ((1 : ℚ) : Cost), 0⟩ []).1 = ⊤ ∧
    (parallel_calculate_rd_loss false ((1 : ℚ) : Cost) (fun _ => some 5)
        [0, 1, 2, 3, 4, 5, 6, 7, 8, 9, 10, 11]).1 = ((((5 : ℚ) + 5) / 2 : ℚ) : Cost) ∧
    (parallel_calculate_rd_loss false ((1 : ℚ) : Cost) (fun _ => some 5)
        [0, 1, 2, 3, 4, 5, 6, 7, 8, 9, 10, 11]).2
      = [[0, 1, 2, 3, 4, 5, 6, 7, 8, 9, 10, 11].take 11,
         [0, 1, 2, 3, 4, 5, 6, 7, 8, 9, 10, 11].drop 11] :=
  pruning_toggle 1 5 5 (fun _ => some 5) [0, 1, 2, 3, 4, 5, 6, 7, 8, 9, 10, 11]
    ⟨[], ((1 : ℚ) : Cost), 0⟩ [] (by decide) (by decide)
    (by norm_num [calculate_group_loss, groupLossAux, List.take])
    (by norm_num [calculate_group_loss, groupLossAux, List.drop])
    (by norm_num) (by decide) rfl

/-! ## Simulated annealing  (src/core/optimizer.py, lines 493–547)

`math.exp` is an external float routine; it is modelled by the oracle
`expFn`. The `random.randint(-range, range)` and `random.random()` draws
are the oracle streams `rs` and `us`. -/

/-- The loop state: `current_index`, `best_index`, `best_cost`. -/
structure SAState where
  current_index : ℕ
  best_index : ℕ
  best_cost : ℚ
deriving DecidableEq

/-- `new_index = max(0, min(len(strength_range) - 1, new_index))`. -/
def clampIdx (len : ℕ) (i : ℤ) : ℕ :=
  (max 0 (min ((len : ℤ) - 1) i)).toNat

/-- `ParameterOptimizer.accept_new_solution`: Metropolis acceptance with
the exponent `(best_cost - new_cost) / temperature` clamped into
`[-745, 709]` before the (oracle) exponential, compared against the
uniform draw `u`. -/
def accept_new_solution (expFn : ℚ → ℚ) (best_cost new_cost temp u : ℚ) : Bool :=
  decide (u < expFn (max (min ((best_cost - new_cost) / temp) 709) (-745)))

/-- One body of the `while temperature > 0.01` loop: perturb the current
index by the draw `r`, clamp, evaluate; an improving candidate updates the
best pair (only); otherwise Metropolis acceptance moves the walk. -/
def saStep (e : ℕ → ℚ) (expFn : ℚ → ℚ) (len : ℕ) (r : ℤ) (u temp : ℚ) (st : SAState) : SAState :=
  let newIndex := clampIdx len ((st.current_index : ℤ) + r)
  let newCost := e newIndex
  if newCost < st.best_cost then
    { st with best_index := newIndex, best_cost := newCost }
  else if accept_new_solution expFn st.best_cost newCost temp u then
    { st with current_index := newIndex }
  else st

/-- The `while temperature > 0.01` loop with `temperature *= 0.95`;
`n` counts executed steps and indexes the oracle streams. The fuel only
bounds the recursion; 180 units suffice. -/
def saRun (e : ℕ → ℚ) (expFn : ℚ → ℚ) (rs : ℕ → ℤ) (us : ℕ → ℚ) (len : ℕ) :
    ℕ → ℚ → SAState → ℕ → SAState × ℕ
  | 0, _, st, n => (st, n)
  | fuel + 1, temp, st, n =>
    if temp > 1 / 100 then
      saRun e expFn rs us len fuel (temp * (19 / 20))
        (saStep e expFn len (rs n) (us n) temp st) (n + 1)
    else (st, n)

/-- `ParameterOptimizer.simulated_annealing`: temperature starts at 100,
cools by ×0.95; both best trackers start at the initial pair; returns the
best pair seen (and, in this embedding, the number of executed steps). -/
def simulated_annealing (e : ℕ → ℚ) (expFn : ℚ → ℚ) (rs : ℕ → ℤ) (us : ℕ → ℚ)
    (len initial_index : ℕ) (initial_cost : ℚ) (fuel : ℕ) : (ℕ × ℚ) × ℕ :=
  let r := saRun e expFn rs us len fuel 100 ⟨initial_index, initial_index, initial_cost⟩ 0
  ((r.1.best_index, r.1.best_cost), r.2)

/-! ## C3: acceptance behaviour and best-pair tracking -/

/-- Each step can only improve the tracked best, and a changed best pair
is an actually evaluated one. -/
lemma saStep_best (e : ℕ → ℚ) (expFn : ℚ → ℚ) (len : ℕ) (r : ℤ) (u temp : ℚ) (st : SAState) :
    (saStep e expFn len r u temp st).best_cost ≤ st.best_cost ∧
    ((saStep e expFn len r u temp st).best_index = st.best_index ∧
      (saStep e expFn len r u temp st).best_cost = st.best_cost ∨
      e (saStep e expFn len r u temp st).best_index = (saStep e expFn len r u temp st).best_cost) := by
  unfold saStep
  by_cases h : e (clampIdx len ((st.current_index : ℤ) + r)) < st.best_cost
  · rw [if_pos h]
    exact ⟨h.le, Or.inr rfl⟩
  · rw [if_neg h]
    cases hA : accept_new_solution expFn st.best_cost
        (e (clampIdx len ((st.current_index : ℤ) + r))) temp u
    · simp
    · simp

/-- The run never loses the best: the final best pair is no worse than the
initial one, and is either the initial pair or an evaluated one. -/
lemma saRun_best (e : ℕ → ℚ) (expFn : ℚ → ℚ) (rs : ℕ → ℤ) (us : ℕ → ℚ) (len : ℕ) :
    ∀ (fuel : ℕ) (temp : ℚ) (st : SAState) (n : ℕ),
    (saRun e expFn rs us len fuel temp st n).1.best_cost ≤ st.best_cost ∧
    ((saRun e expFn rs us len fuel temp st n).1.best_index = st.best_index ∧
      (saRun e expFn rs us len fuel temp st n).1.best_cost = st.best_cost ∨
      e (saRun e expFn rs us len fuel temp st n).1.best_index
        = (saRun e expFn rs us len fuel temp st n).1.best_cost) := by
  intro fuel
  induction fuel with
  | zero => intro temp st n; exact ⟨le_rfl, Or.inl ⟨rfl, rfl⟩⟩
  | succ f ih =>
    intro temp st n
    by_cases h : temp > 1 / 100
    · have hstep : saRun e expFn rs us len (f + 1) temp st n
          = saRun e expFn rs us len f (temp * (19 / 20))
              (saStep e expFn len (rs n) (us n) temp st) (n + 1) := by
        rw [saRun, if_pos h]
      rw [hstep]
      obtain ⟨hs1, hs2⟩ := saStep_best e expFn len (rs n) (us n) temp st
      obtain ⟨hr1, hr2⟩ := ih (temp * (19 / 20)) (saStep e expFn len (rs n) (us n) temp st) (n + 1)
      refine ⟨hr1.trans hs1, ?_⟩
      rcases hr2 with ⟨ha, hb⟩ | hr2
      · rcases hs2 with ⟨hc, hd⟩ | hs2
        · exact Or.inl ⟨ha.trans hc, hb.trans hd⟩
        · exact Or.inr (by rw [ha, hb]; exact hs2)
      · exact Or.inr hr2
    · have hstep : saRun e expFn rs us len (f + 1) temp st n = (st, n) := by
        rw [saRun, if_neg h]
      rw [hstep]
      exact ⟨le_rfl, Or.inl ⟨rfl, rfl⟩⟩

/-- C3 (amended): an improving candidate updates the tracked best pair but
leaves the walk's current index unchanged; a non-improving candidate
leaves the best pair unchanged and moves the walk exactly when the uniform
draw is below `expFn` of the clamped Metropolis exponent
`(best_cost - new_cost) / temperature`; and the procedure returns a best
pair that is never worse than the initial pair and is either the initial
pair or an actually evaluated one. -/
theorem sa_metropolis_and_best_tracking (e : ℕ → ℚ) (expFn : ℚ → ℚ) (len : ℕ) (r : ℤ)
    (u temp : ℚ) (st : SAState) (rs : ℕ → ℤ) (us : ℕ → ℚ) (fuel i0 : ℕ) (c0 : ℚ) :
    (e (clampIdx len ((st.current_index : ℤ) + r)) < st.best_cost →
      (saStep e expFn len r u temp st).best_index = clampIdx len ((st.current_index : ℤ) + r) ∧
      (saStep e expFn len r u temp st).best_cost
        = e (clampIdx len ((st.current_index : ℤ) + r)) ∧
      (saStep e expFn len r u temp st).current_index = st.current_index) ∧
    (¬ e (clampIdx len ((st.current_index : ℤ) + r)) < st.best_cost →
      (saStep e expFn len r u temp st).best_index = st.best_index ∧
      (saStep e expFn len r u temp st).best_cost = st.best_cost ∧
      (saStep e expFn len r u temp st).current_index
        = (if u < expFn (max (min ((st.best_cost
              - e (clampIdx len ((st.current_index : ℤ) + r))) / temp) 709) (-745))
           then clampIdx len ((st.current_index : ℤ) + r) else st.current_index)) ∧
    (simulated_annealing e expFn rs us len i0 c0 fuel).1.2 ≤ c0 ∧
    ((simulated_annealing e expFn rs us len i0 c0 fuel).1 = (i0, c0) ∨
      e (simulated_annealing e expFn rs us len i0 c0 fuel).1.1
        = (simulated_annealing e expFn rs us len i0 c0 fuel).1.2) := by
  refine ⟨?_, ?_, ?_, ?_⟩
  · intro h
    unfold saStep
    rw [if_pos h]
    exact ⟨rfl, rfl, rfl⟩
  · intro h
    unfold saStep
    rw [if_neg h]
    by_cases hA : u < expFn (max (min ((st.best_cost
        - e (clampIdx len ((st.current_index : ℤ) + r))) / temp) 709) (-745))
    · have hacc : accept_new_solution expFn st.best_cost
          (e (clampIdx len ((st.current_index : ℤ) + r))) temp u = true :=
        decide_eq_true hA
      rw [hacc, if_pos hA]
      simp
    · have hacc : accept_new_solution expFn st.best_cost
          (e (clampIdx len ((st.current_index : ℤ) + r))) temp u = false := by
        simp only [accept_new_solution, decide_eq_false_iff_not]
        exact hA
      rw [hacc, if_neg hA]
      simp
  · exact (saRun_best e expFn rs us len fuel 100 ⟨i0, i0, c0⟩ 0).1
  · rcases (saRun_best e expFn rs us len fuel 100 ⟨i0, i0, c0⟩ 0).2 with ⟨ha, hb⟩ | hfact
    · exact Or.inl (by
        show ((saRun e expFn rs us len fuel 100 ⟨i0, i0, c0⟩ 0).1.best_index,
          (saRun e expFn rs us len fuel 100 ⟨i0, i0, c0⟩ 0).1.best_cost) = (i0, c0)
        rw [ha, hb])
    · exact Or.inr hfact

/-- C3 witness: a concrete improving step (candidate cost −1 below best 0)
updates the best pair to (1, −1), keeps the walk at index 0; a concrete
non-improving step with `expFn = id`, draw `u = 2` and exponent clamp
floor −745 rejects, leaving everything unchanged; and a run returns a best
pair never worse than the initial one. -/
theorem sa_metropolis_and_best_tracking_w :
    ((saStep (fun i => -(i : ℚ)) id 2 1 2 100 ⟨0, 0, 0⟩).best_index = clampIdx 2 ((0 : ℤ) + 1) ∧
      (saStep (fun i => -(i : ℚ)) id 2 1 2 100 ⟨0, 0, 0⟩).best_cost
        = (fun i => -(i : ℚ)) (clampIdx 2 ((0 : ℤ) + 1)) ∧
      (saStep (fun i => -(i : ℚ)) id 2 1 2 100 ⟨0, 0, 0⟩).current_index = 0) ∧
    ((saStep (fun i => (i : ℚ)) id 2 1 2 100 ⟨0, 0, 0⟩).best_index = 0 ∧
      (saStep (fun i => (i : ℚ)) id 2 1 2 100 ⟨0, 0, 0⟩).best_cost = 0 ∧
      (saStep (fun i => (i : ℚ)) id 2 1 2 100 ⟨0, 0, 0⟩).current_index
        = (if (2 : ℚ) < id (max (min (((0 : ℚ)
              - (fun i => (i : ℚ)) (clampIdx 2 ((0 : ℤ) + 1))) / 100) 709) (-745))
           then clampIdx 2 ((0 : ℤ) + 1) else 0)) ∧
    (simulated_annealing (fun i => -(i : ℚ)) id (fun _ => 1) (fun _ => 2) 2 0 0 180).1.2 ≤ 0 :=
  ⟨(sa_metropolis_and_best_tracking (fun i => -(i : ℚ)) id 2 1 2 100 ⟨0, 0, 0⟩
      (fun _ => 1) (fun _ => 2) 180 0 0).1 (by norm_num [clampIdx]),
   (sa_metropolis_and_best_tracking (fun i => (i : ℚ)) id 2 1 2 100 ⟨0, 0, 0⟩
      (fun _ => 1) (fun _ => 2) 180 0 0).2.1 (by norm_num [clampIdx]),
   (sa_metropolis_and_best_tracking (fun i => -(i : ℚ)) id 2 1 2 100 ⟨0, 0, 0⟩
      (fun _ => 1) (fun _ => 2) 180 0 0).2.2.1⟩

/-- C3 counterexample: the claim that an improving candidate is "accepted"
in the sense that the walk's current index becomes the candidate's index
is false: with `e i = -i` from state (current 0, best 0, cost 0) and draw
+1, the candidate index is 1 with improving cost −1, yet after the step
the current index is still 0. -/
theorem sa_improving_does_not_move_walk :
    (fun i => -(i : ℚ)) (clampIdx 2 ((0 : ℤ) + 1)) < (0 : ℚ) ∧
    clampIdx 2 ((0 : ℤ) + 1) = 1 ∧
    (saStep (fun i => -(i : ℚ)) id 2 1 2 100 ⟨0, 0, 0⟩).current_index = 0 := by
  refine ⟨by norm_num [clampIdx], by norm_num [clampIdx], ?_⟩
  norm_num [saStep, clampIdx]

/-! ## C9: the annealing loop runs a fixed, cost-independent number of steps -/

lemma pow95_179 : (1 : ℚ) / 10000 < ((19 : ℚ) / 20) ^ 179 := by norm_num

lemma pow95_180 : ((19 : ℚ) / 20) ^ 180 < 1 / 10000 := by norm_num

/-- With the temperature at `100 · 0.95^k` after `k` steps, the loop runs
exactly `180 - k` more steps, whatever the evaluator and oracles do. -/
lemma saRun_count (e : ℕ → ℚ) (expFn : ℚ → ℚ) (rs : ℕ → ℤ) (us : ℕ → ℚ) (len : ℕ) :
    ∀ (fuel k : ℕ) (st : SAState) (n : ℕ), k ≤ 180 → 180 - k ≤ fuel →
    (saRun e expFn rs us len fuel (100 * (19 / 20) ^ k) st n).2 = n + (180 - k) := by
  intro fuel
  induction fuel with
  | zero =>
    intro k st n hk hf
    have h0 : (180 : ℕ) - k = 0 := by omega
    rw [h0, saRun]
    simp
  | succ f ih =>
    intro k st n hk hf
    by_cases hk180 : k = 180
    · subst hk180
      have hcond : ¬ ((100 : ℚ) * (19 / 20) ^ 180 > 1 / 100) := by
        have h := pow95_180
        rw [not_lt]
        nlinarith
      rw [saRun, if_neg hcond]
      omega
    · have hklt : k < 180 := by omega
      have hmono : ((19 : ℚ) / 20) ^ 179 ≤ ((19 : ℚ) / 20) ^ k :=
        pow_le_pow_of_le_one (by norm_num) (by norm_num) (by omega)
      have hcond : (100 : ℚ) * (19 / 20) ^ k > 1 / 100 := by
        have h := pow95_179
        nlinarith
      rw [saRun, if_pos hcond]
      have hmul : (100 : ℚ) * (19 / 20) ^ k * (19 / 20) = 100 * (19 / 20) ^ (k + 1) := by
        ring
      rw [hmul, ih (k + 1) _ _ (by omega) (by omega)]
      omega

/-- The exact step count matches the spec's closed form
`⌈ln(0.01/100)/ln(0.95)⌉ = 180`. -/
lemma ceil_log_value : ⌈Real.log ((1 / 100) / 100) / Real.log (19 / 20)⌉ = (180 : ℤ) := by
  have harg : ((1 : ℝ) / 100) / 100 = 1 / 10000 := by norm_num
  have h179 : (1 : ℝ) / 10000 < ((19 : ℝ) / 20) ^ 179 := by norm_num
  have h180 : ((19 : ℝ) / 20) ^ 180 < 1 / 10000 := by norm_num
  have hL : Real.log ((19 : ℝ) / 20) < 0 := Real.log_neg (by norm_num) (by norm_num)
  have hlog179 : Real.log ((1 : ℝ) / 10000) < 179 * Real.log ((19 : ℝ) / 20) := by
    have := Real.log_lt_log (by norm_num : (0 : ℝ) < 1 / 10000) h179
    rwa [Real.log_pow] at this
  have hlog180 : 180 * Real.log ((19 : ℝ) / 20) < Real.log ((1 : ℝ) / 10000) := by
    have hpos : (0 : ℝ) < ((19 : ℝ) / 20) ^ 180 := by positivity
    have := Real.log_lt_log hpos h180
    rwa [Real.log_pow] at this
  rw [harg]
  rw [Int.ceil_eq_iff]
  constructor
  · push_cast
    rw [lt_div_iff_of_neg hL]
    calc Real.log ((1 : ℝ) / 10000) < 179 * Real.log ((19 : ℝ) / 20) := hlog179
    _ = (180 - 1) * Real.log ((19 : ℝ) / 20) := by norm_num
  · push_cast
    rw [div_le_iff_of_neg hL]
    exact hlog180.le

/-- C9: with starting temperature 100, cooling ×0.95 and stop threshold
0.01, `simulated_annealing` executes exactly `⌈ln(0.01/100)/ln(0.95)⌉`
(= 180) loop steps, for every evaluator, exponential oracle and random
streams — the count does not depend on the cost landscape. -/
theorem annealing_step_count (e : ℕ → ℚ) (expFn : ℚ → ℚ) (rs : ℕ → ℤ) (us : ℕ → ℚ)
    (len i0 : ℕ) (c0 : ℚ) (fuel : ℕ) (h : 180 ≤ fuel) :
    ((simulated_annealing e expFn rs us len i0 c0 fuel).2 : ℤ)
      = ⌈Real.log ((1 / 100) / 100) / Real.log (19 / 20)⌉ := by
  have hcount := saRun_count e expFn rs us len fuel 0 ⟨i0, i0, c0⟩ 0 (by omega) (by omega)
  rw [pow_zero, mul_one] at hcount
  have hwrap : (simulated_annealing e expFn rs us len i0 c0 fuel).2
      = (saRun e expFn rs us len fuel 100 ⟨i0, i0, c0⟩ 0).2 := rfl
  rw [hwrap, hcount, ceil_log_value]
  norm_num

/-- C9 witness: a concrete run with 180 units of fuel executes exactly the
closed-form number of steps. -/
theorem annealing_step_count_w :
    ((simulated_annealing (fun _ => 0) id (fun _ => 0) (fun _ => 0) 1 0 0 180).2 : ℤ)
      = ⌈Real.log ((1 / 100) / 100) / Real.log (19 / 20)⌉ :=
  annealing_step_count (fun _ => 0) id (fun _ => 0) (fun _ => 0) 1 0 0 180 (by norm_num)

/-! ## RandomOptimizer  (src/experiments/baselines/random_search.py)

The evaluator is a stateful function `E : σ → Config → Cost × σ` (the real
one carries its cache); the `random_sample` draws come from `oracle`. The
last component of each result counts the `evaluate()` calls issued. -/

/-- The `for i in range(1, max_evals + 1)` loop: sample the whole space in
place, evaluate the sampled snapshot, keep the best snapshot seen. -/
def randomLoop {σ : Type} (E : σ → Config → Cost × σ) (oracle : ℕ → List (List ℕ)) :
    ℕ → ℕ → Space → σ → Config → Cost → Config × Space × σ × ℕ
  | 0, _, sp, st, best, _ => (best, sp, st, 0)
  | fuel + 1, i, sp, st, best, minCost =>
    let sp' := sp.random_sample (oracle i)
    let cfg := get_all_config sp'
    let c := (E st cfg).1
    let best' := if c < minCost then cfg else best
    let min' := if c < minCost then c else minCost
    let r := randomLoop E oracle fuel (i + 1) sp' (E st cfg).2 best' min'
    (r.1, r.2.1, r.2.2.1, r.2.2.2 + 1)

/-- `RandomOptimizer.optimize`: evaluate the default snapshot, then run
the sampling loop; returns (best snapshot, final space, final evaluator
state, number of `evaluate()` calls). -/
def RandomOptimizer.optimize {σ : Type} (E : σ → Config → Cost × σ)
    (oracle : ℕ → List (List ℕ)) (max_evals : ℕ) (sp : Space) (st : σ) :
    Config × Space × σ × ℕ :=
  let cfg0 := get_all_config sp
  let r := randomLoop E oracle max_evals 1 sp (E st cfg0).2 cfg0 (E st cfg0).1
  (r.1, r.2.1, r.2.2.1, r.2.2.2 + 1)

/-- The space trajectory under successive whole-space samples. -/
def sampleFold (oracle : ℕ → List (List ℕ)) : Space → ℕ → ℕ → Space
  | sp, _, 0 => sp
  | sp, i, k + 1 => sampleFold oracle (sp.random_sample (oracle i)) (i + 1) k

/-! ## GeneticOptimizer  (src/experiments/baselines/genetic.py) -/

/-- Python `p2[module_name]` dictionary access. -/
def configGet (cfg : Config) (nm : String) : List (String × ℚ) :=
  ((cfg.find? (fun mp => mp.1 = nm)).getD (nm, [])).2

/-- `GeneticOptimizer._tournament_select`: `random.sample(range(len(population)), 3)`
raises `ValueError` when the population has fewer than 3 individuals —
modelled as `none`. Otherwise scan the drawn indices, keep the first
strictly-smallest fitness; with no winner (all fitnesses infinite) Python
returns `population[-1]`, the last individual. -/
def tournament_select (pop : List Config) (fits : List Cost) (draws : List ℕ) :
    Option Config :=
  if pop.length < 3 then none
  else
    let best := draws.foldl
      (fun (acc : Option ℕ × Cost) i =>
        if fits.getD i ⊤ < acc.2 then (some i, fits.getD i ⊤) else acc)
      (none, ⊤)
    some (match best.1 with
          | some i => pop.getD i []
          | none => pop.getD (pop.length - 1) [])

/-- `GeneticOptimizer._crossover`: with `copyDraw > cx_prob` return the
first parent unchanged; otherwise pick each module from parent 1 when the
per-module draw is below 1/2, else from parent 2 by name. -/
def crossover (cx_prob copyDraw : ℚ) (pickDraws : ℕ → ℚ) (p1 p2 : Config) : Config :=
  if copyDraw > cx_prob then p1
  else (List.range p1.length).map (fun k =>
    let mp := p1.getD k ("", [])
    if pickDraws k < 1 / 2 then mp else (mp.1, configGet p2 mp.1))

def configSet (cfg : Config) (mName pName : String) (v : ℚ) : Config :=
  cfg.map (fun mp =>
    if mp.1 = mName
    then (mp.1, mp.2.map (fun pv => if pv.1 = pName then (pv.1, v) else pv))
    else mp)

def findModule (space : Space) (nm : String) : Module :=
  (space.find? (fun m => m.name = nm)).getD ⟨nm, [], false, none⟩

/-- The side effect of `param_obj.random_sample()` inside `_mutate`: the
chosen parameter object of the ParameterSpace itself is re-indexed. -/
def spaceSampleParam (space : Space) (mName pName : String) (draw : ℕ) : Space :=
  space.map (fun md =>
    if md.name = mName
    then { md with params := md.params.map (fun p =>
        if p.name = pName then p.random_sample draw else p) }
    else md)

/-- `GeneticOptimizer._mutate`: with `skipDraw > mut_prob` nothing happens;
otherwise pick one module name, one parameter key, re-sample that
parameter — mutating the ParameterSpace (`param_obj.random_sample()`),
whose new value is written into the individual's dictionary. Returns the
mutant together with the updated space. -/
def mutate (mut_prob skipDraw : ℚ) (mDraw pDraw iDraw : ℕ) (space : Space) (ind : Config) :
    Config × Space :=
  if skipDraw > mut_prob then (ind, space)
  else
    let mNames := ind.map (fun mp => mp.1)
    let target := mNames.getD (mDraw % mNames.length) ""
    let mObj := findModule space target
    let pKeys := mObj.params.map (fun p => p.name)
    let pKey := pKeys.getD (pDraw % pKeys.length) ""
    let pObj := (mObj.params.find? (fun p => p.name = pKey)).getD ⟨"", [], 0⟩
    let newVal := pObj.candidates.getD (iDraw % pObj.candidates.length) 0
    (configSet ind target pKey newVal, spaceSampleParam space target pKey iDraw)

/-- All random draws the GA consumes, as oracle streams indexed by
generation and offspring slot. -/
structure GAOracle where
  selA : ℕ → ℕ → List ℕ
  selB : ℕ → ℕ → List ℕ
  cxCopy : ℕ → ℕ → ℚ
  cxPick : ℕ → ℕ → ℕ → ℚ
  mutSkip : ℕ → ℕ → ℚ
  mutM : ℕ → ℕ → ℕ
  mutP : ℕ → ℕ → ℕ
  mutI : ℕ → ℕ → ℕ

/-- The `while len(next_generation) < pop_size` filler: each iteration
appends exactly one offspring (tournament ×2, crossover, mutation — the
mutation's space side effect is threaded through). A failed tournament
(`ValueError`) aborts the fill: the first component becomes `none`. -/
def buildOffspring (o : GAOracle) (cx mu : ℚ) (pop : List Config) (fits : List Cost)
    (gi : ℕ) : ℕ → ℕ → Space → Option (List Config) × Space
  | 0, _, sp => (some [], sp)
  | k + 1, slot, sp =>
    match tournament_select pop fits (o.selA gi slot),
        tournament_select pop fits (o.selB gi slot) with
    | some p1, some p2 =>
      let cm := mutate mu (o.mutSkip gi slot) (o.mutM gi slot) (o.mutP gi slot)
        (o.mutI gi slot) sp (crossover cx (o.cxCopy gi slot) (o.cxPick gi slot) p1 p2)
      let r := buildOffspring o cx mu pop fits gi k (slot + 1) cm.2
      (r.1.map (fun l => cm.1 :: l), r.2)
    | _, _ => (none, sp)

/-- One `evaluate()` call per individual, in order; the count of calls is
returned alongside the fitness list. -/
def evalPop {σ : Type} (E : σ → Config → Cost × σ) : List Config → σ → List Cost × σ × ℕ
  | [], st => ([], st, 0)
  | c :: rest, st =>
    let r := E st c
    let rr := evalPop E rest r.2
    (r.1 :: rr.1, rr.2.1, rr.2.2 + 1)

/-- The running `if cost < min_cost` best tracker of the evaluation loops. -/
def updateBest : List Config → List Cost → Config → Cost → Config × Cost
  | [], _, best, mc => (best, mc)
  | _ :: _, [], best, mc => (best, mc)
  | c :: cs, f :: fs, best, mc =>
    if f < mc then updateBest cs fs c f else updateBest cs fs best mc

/-- `GeneticOptimizer._init_population`: `pop_size − 1` successive
whole-space `random_sample` calls, each mutating the space in place. -/
def gaInitLoop (initDraws : ℕ → List (List ℕ)) : ℕ → ℕ → Space → List Config × Space
  | 0, _, sp => ([], sp)
  | k + 1, i, sp =>
    let sp' := sp.random_sample (initDraws i)
    let r := gaInitLoop initDraws k (i + 1) sp'
    (get_all_config sp' :: r.1, r.2)

/-- The initial population: the default snapshot plus `pop_size − 1`
random individuals; the space is left at the last sample. -/
def gaInitPop (space : Space) (initDraws : ℕ → List (List ℕ)) (pop_size : ℕ) :
    List Config × Space :=
  let r := gaInitLoop initDraws (pop_size - 1) 0 space
  (get_all_config space :: r.1, r.2)

/-- What `GeneticOptimizer.optimize` leaves behind: the best individual
(`none` models the `ValueError` escaping `optimize`), the evaluator
state, the number of `evaluate()` calls issued, and the final space. -/
structure GAResult (σ : Type) where
  best : Option Config
  state : σ
  calls : ℕ
  space : Space

/-- The generation loop: elitism (`best` survives), fill with offspring,
evaluate the new generation, update the global best. A `ValueError` in
tournament selection aborts the run before any further evaluation. -/
def gaGenLoop {σ : Type} (E : σ → Config → Cost × σ) (o : GAOracle) (cx mu : ℚ)
    (pop_size : ℕ) :
    ℕ → ℕ → List Config → List Cost → Config → Cost → σ → ℕ → Space → GAResult σ
  | 0, _, _, _, best, _, st, n, sp => ⟨some best, st, n, sp⟩
  | g + 1, gi, pop, fits, best, mc, st, n, sp =>
    let bo := buildOffspring o cx mu pop fits gi (pop_size - 1) 0 sp
    match bo.1 with
    | none => ⟨none, st, n, bo.2⟩
    | some offs =>
      let next := best :: offs
      let er := evalPop E next st
      let ub := updateBest next er.1 best mc
      gaGenLoop E o cx mu pop_size g (gi + 1) next er.1 ub.1 ub.2 er.2.1 (n + er.2.2) bo.2

/-- `GeneticOptimizer.optimize`: initial population, initial evaluation
(`best_individual = None` is modelled by the empty snapshot together with
the `⊤` fitness, exactly as unreachable), then the generation loop. -/
def GeneticOptimizer.optimize {σ : Type} (E : σ → Config → Cost × σ) (o : GAOracle)
    (initDraws : ℕ → List (List ℕ)) (cx mu : ℚ) (pop_size generations : ℕ)
    (space : Space) (st : σ) : GAResult σ :=
  let ip := gaInitPop space initDraws pop_size
  let er := evalPop E ip.1 st
  let ub := updateBest ip.1 er.1 [] ⊤
  gaGenLoop E o cx mu pop_size generations 1 ip.1 er.1 ub.1 ub.2 er.2.1 er.2.2 ip.2

/-! ## C2: what `optimize()` leaves in the ParameterSpace -/

/-- A deterministic, stateless evaluator (the shape the claims quantify
over once caching is abstracted away). -/
def pureE (f : Config → Cost) : Unit → Config → Cost × Unit := fun u cfg => (f cfg, u)

/-- The final space after the loop is the pure sampling trajectory —
whatever the evaluator returned. -/
lemma randomLoop_space {σ : Type} (E : σ → Config → Cost × σ) (oracle : ℕ → List (List ℕ)) :
    ∀ (fuel i : ℕ) (sp : Space) (st : σ) (best : Config) (mc : Cost),
    (randomLoop E oracle fuel i sp st best mc).2.1 = sampleFold oracle sp i fuel := by
  intro fuel
  induction fuel with
  | zero => intro i sp st best mc; rfl
  | succ f ih =>
    intro i sp st best mc
    simp only [randomLoop]
    rw [ih]
    rfl

/-- The loop returns a snapshot whose cost is the minimum of the incoming
best and all sampled snapshots. -/
lemma randomLoop_best (f : Config → Cost) (oracle : ℕ → List (List ℕ)) :
    ∀ (fuel i : ℕ) (sp : Space) (best : Config) (mc : Cost), f best = mc →
    f (randomLoop (pureE f) oracle fuel i sp () best mc).1 ≤ mc ∧
    ∀ k, k < fuel →
      f (randomLoop (pureE f) oracle fuel i sp () best mc).1
        ≤ f (get_all_config (sampleFold oracle sp i (k + 1))) := by
  intro fuel
  induction fuel with
  | zero =>
    intro i sp best mc hbm
    exact ⟨le_of_eq hbm, fun k hk => absurd hk (Nat.not_lt_zero k)⟩
  | succ fl ih =>
    intro i sp best mc hbm
    have hstep : (randomLoop (pureE f) oracle (fl + 1) i sp () best mc).1
        = (randomLoop (pureE f) oracle fl (i + 1) (sp.random_sample (oracle i)) ()
            (if f (get_all_config (sp.random_sample (oracle i))) < mc
              then get_all_config (sp.random_sample (oracle i)) else best)
            (if f (get_all_config (sp.random_sample (oracle i))) < mc
              then f (get_all_config (sp.random_sample (oracle i))) else mc)).1 := rfl
    have hinv : f (if f (get_all_config (sp.random_sample (oracle i))) < mc
          then get_all_config (sp.random_sample (oracle i)) else best)
        = (if f (get_all_config (sp.random_sample (oracle i))) < mc
          then f (get_all_config (sp.random_sample (oracle i))) else mc) := by
      by_cases h : f (get_all_config (sp.random_sample (oracle i))) < mc
      · rw [if_pos h, if_pos h]
      · rw [if_neg h, if_neg h]
        exact hbm
    obtain ⟨ih1, ih2⟩ := ih (i + 1) (sp.random_sample (oracle i)) _ _ hinv
    constructor
    · rw [hstep]
      refine ih1.trans ?_
      by_cases h : f (get_all_config (sp.random_sample (oracle i))) < mc
      · rw [if_pos h]
        exact h.le
      · rw [if_neg h]
    · intro k hk
      rw [hstep]
      cases k with
      | zero =>
        have hsf : sampleFold oracle sp i 1 = sp.random_sample (oracle i) := rfl
        rw [hsf]
        refine ih1.trans ?_
        by_cases h : f (get_all_config (sp.random_sample (oracle i))) < mc
        · rw [if_pos h]
        · rw [if_neg h]
          exact not_lt.mp h
      | succ k' =>
        have hsf : sampleFold oracle sp i (k' + 2)
            = sampleFold oracle (sp.random_sample (oracle i)) (i + 1) (k' + 1) := rfl
        rw [hsf]
        exact ih2 k' (by omega)

/-- C2 (amended): `RandomOptimizer.optimize` leaves the ParameterSpace in
the state of the **last random sample**, not in the state of the returned
snapshot; the returned snapshot is the minimum-cost one among the default
and all sampled snapshots (for a deterministic evaluator). -/
theorem random_optimizer_best_vs_space_state (σ : Type) (E : σ → Config → Cost × σ)
    (oracle : ℕ → List (List ℕ)) (n : ℕ) (sp : Space) (st : σ) (f : Config → Cost) :
    (RandomOptimizer.optimize E oracle n sp st).2.1 = sampleFold oracle sp 1 n ∧
    f (RandomOptimizer.optimize (pureE f) oracle n sp ()).1 ≤ f (get_all_config sp) ∧
    ∀ k, k < n → f (RandomOptimizer.optimize (pureE f) oracle n sp ()).1
      ≤ f (get_all_config (sampleFold oracle sp 1 (k + 1))) := by
  refine ⟨?_, ?_, ?_⟩
  · have h : (RandomOptimizer.optimize E oracle n sp st).2.1
        = (randomLoop E oracle n 1 sp (E st (get_all_config sp)).2 (get_all_config sp)
            (E st (get_all_config sp)).1).2.1 := rfl
    rw [h, randomLoop_space]
  · have h : (RandomOptimizer.optimize (pureE f) oracle n sp ()).1
        = (randomLoop (pureE f) oracle n 1 sp () (get_all_config sp)
            (f (get_all_config sp))).1 := rfl
    rw [h]
    exact (randomLoop_best f oracle n 1 sp _ _ rfl).1
  · intro k hk
    have h : (RandomOptimizer.optimize (pureE f) oracle n sp ()).1
        = (randomLoop (pureE f) oracle n 1 sp () (get_all_config sp)
            (f (get_all_config sp))).1 := rfl
    rw [h]
    exact (randomLoop_best f oracle n 1 sp _ _ rfl).2 k hk

/-- A one-module, one-parameter space with candidates `{0, 1}` at index 0. -/
def demoSpace : Space :=
  [⟨"m", [Parameter.make "p" [0, 1] 0], false, none⟩]

/-- Cost of a snapshot = the (sole) parameter value. -/
def demoCost (cfg : Config) : Cost :=
  ((((cfg.headD ("", [])).2.headD ("", 0)).2 : ℚ) : Cost)

/-- C2 witness: on the demo space with one sample that evaluates worse,
the space ends at the sample while the returned best is the default. -/
theorem random_optimizer_best_vs_space_state_w :
    (RandomOptimizer.optimize (pureE demoCost) (fun _ => [[1]]) 1 demoSpace ()).2.1
      = sampleFold (fun _ => [[1]]) demoSpace 1 1 ∧
    demoCost (RandomOptimizer.optimize (pureE demoCost) (fun _ => [[1]]) 1 demoSpace ()).1
      ≤ demoCost (get_all_config demoSpace) ∧
    demoCost (RandomOptimizer.optimize (pureE demoCost) (fun _ => [[1]]) 1 demoSpace ()).1
      ≤ demoCost (get_all_config (sampleFold (fun _ => [[1]]) demoSpace 1 (0 + 1))) :=
  ⟨(random_optimizer_best_vs_space_state Unit (pureE demoCost) (fun _ => [[1]]) 1 demoSpace ()
      demoCost).1,
   (random_optimizer_best_vs_space_state Unit (pureE demoCost) (fun _ => [[1]]) 1 demoSpace ()
      demoCost).2.1,
   (random_optimizer_best_vs_space_state Unit (pureE demoCost) (fun _ => [[1]]) 1 demoSpace ()
      demoCost).2.2 0 (by norm_num)⟩

/-- C2 counterexample: after `RandomOptimizer.optimize` returns, the
ParameterSpace's snapshot differs from the returned configuration — the
space holds the last (worse) random sample, the return value the default. -/
theorem random_optimizer_space_mismatch :
    (RandomOptimizer.optimize (pureE demoCost) (fun _ => [[1]]) 1 demoSpace ()).1
      ≠ get_all_config
          (RandomOptimizer.optimize (pureE demoCost) (fun _ => [[1]]) 1 demoSpace ()).2.1 := by
  norm_num [RandomOptimizer.optimize, randomLoop, pureE, demoSpace, demoCost, get_all_config,
    Space.random_sample, Module.random_sample, sampleParams, Parameter.random_sample,
    Parameter.make, Parameter.value, List.insertionSort, List.orderedInsert]

/-! ## C7: evaluator-call budgets -/

lemma randomLoop_count {σ : Type} (E : σ → Config → Cost × σ) (oracle : ℕ → List (List ℕ)) :
    ∀ (fuel i : ℕ) (sp : Space) (st : σ) (best : Config) (mc : Cost),
    (randomLoop E oracle fuel i sp st best mc).2.2.2 = fuel := by
  intro fuel
  induction fuel with
  | zero => intro i sp st best mc; rfl
  | succ f ih =>
    intro i sp st best mc
    simp only [randomLoop]
    rw [ih]

lemma random_call_count {σ : Type} (E : σ → Config → Cost × σ) (oracle : ℕ → List (List ℕ))
    (b : ℕ) (sp : Space) (st : σ) :
    (RandomOptimizer.optimize E oracle b sp st).2.2.2 = b + 1 := by
  have h : (RandomOptimizer.optimize E oracle b sp st).2.2.2
      = (randomLoop E oracle b 1 sp (E st (get_all_config sp)).2 (get_all_config sp)
          (E st (get_all_config sp)).1).2.2.2 + 1 := rfl
  rw [h, randomLoop_count]

lemma evalPop_count {σ : Type} (E : σ → Config → Cost × σ) :
    ∀ (l : List Config) (st : σ), (evalPop E l st).2.2 = l.length := by
  intro l
  induction l with
  | nil => intro st; rfl
  | cons c rest ih =>
    intro st
    simp only [evalPop]
    rw [ih]
    rfl

lemma gaInitLoop_length (initDraws : ℕ → List (List ℕ)) :
    ∀ (k i : ℕ) (sp : Space), (gaInitLoop initDraws k i sp).1.length = k := by
  intro k
  induction k with
  | zero => intro i sp; rfl
  | succ k' ih =>
    intro i sp
    simp only [gaInitLoop, List.length_cons]
    rw [ih]

lemma gaInitPop_length (space : Space) (initDraws : ℕ → List (List ℕ)) (p : ℕ) :
    (gaInitPop space initDraws p).1.length = 1 + (p - 1) := by
  simp only [gaInitPop, List.length_cons, gaInitLoop_length]
  omega

lemma tournament_select_isSome (pop : List Config) (fits : List Cost) (draws : List ℕ)
    (h3 : 3 ≤ pop.length) : ∃ c, tournament_select pop fits draws = some c := by
  unfold tournament_select
  rw [if_neg (by omega)]
  exact ⟨_, rfl⟩

lemma tournament_select_none (pop : List Config) (fits : List Cost) (draws : List ℕ)
    (h3 : pop.length < 3) : tournament_select pop fits draws = none := by
  unfold tournament_select
  rw [if_pos h3]

/-- With at least three individuals the fill always succeeds and produces
exactly `k` offspring. -/
lemma buildOffspring_ok (o : GAOracle) (cx mu : ℚ) (pop : List Config) (fits : List Cost)
    (gi : ℕ) (h3 : 3 ≤ pop.length) :
    ∀ (k slot : ℕ) (sp : Space),
    ∃ l, (buildOffspring o cx mu pop fits gi k slot sp).1 = some l ∧ l.length = k := by
  intro k
  induction k with
  | zero => intro slot sp; exact ⟨[], rfl, rfl⟩
  | succ k' ih =>
    intro slot sp
    obtain ⟨c1, hc1⟩ := tournament_select_isSome pop fits (o.selA gi slot) h3
    obtain ⟨c2, hc2⟩ := tournament_select_isSome pop fits (o.selB gi slot) h3
    obtain ⟨l, hl, hlen⟩ := ih (slot + 1)
      ((mutate mu (o.mutSkip gi slot) (o.mutM gi slot) (o.mutP gi slot) (o.mutI gi slot) sp
        (crossover cx (o.cxCopy gi slot) (o.cxPick gi slot) c1 c2)).2)
    refine ⟨(mutate mu (o.mutSkip gi slot) (o.mutM gi slot) (o.mutP gi slot) (o.mutI gi slot) sp
        (crossover cx (o.cxCopy gi slot) (o.cxPick gi slot) c1 c2)).1 :: l, ?_, ?_⟩
    · simp only [buildOffspring, hc1, hc2, hl]
      rfl
    · simp [hlen]

/-- With fewer than three individuals the very first tournament raises. -/
lemma buildOffspring_none (o : GAOracle) (cx mu : ℚ) (pop : List Config) (fits : List Cost)
    (gi : ℕ) (h3 : pop.length < 3) (k slot : ℕ) (sp : Space) :
    (buildOffspring o cx mu pop fits gi (k + 1) slot sp).1 = none := by
  simp only [buildOffspring, tournament_select_none pop fits (o.selA gi slot) h3]

lemma gaGenLoop_calls {σ : Type} (E : σ → Config → Cost × σ) (o : GAOracle) (cx mu : ℚ)
    (pop_size : ℕ) (hp : pop_size - 1 = 0 ∨ 3 ≤ pop_size) :
    ∀ (g gi : ℕ) (pop : List Config) (fits : List Cost) (best : Config) (mc : Cost)
      (st : σ) (n : ℕ) (sp : Space), pop.length = 1 + (pop_size - 1) →
    (gaGenLoop E o cx mu pop_size g gi pop fits best mc st n sp).calls
      = n + g * (1 + (pop_size - 1)) := by
  intro g
  induction g with
  | zero =>
    intro gi pop fits best mc st n sp hlen
    simp [gaGenLoop]
  | succ g' ih =>
    intro gi pop fits best mc st n sp hlen
    rcases hp with hp0 | hp3
    · have hbo : (buildOffspring o cx mu pop fits gi (pop_size - 1) 0 sp).1 = some [] := by
        rw [hp0]
        rfl
      simp only [gaGenLoop, hbo]
      rw [ih (gi + 1) _ _ _ _ _ _ _ (by simp [hp0]), evalPop_count]
      simp only [List.length_cons, List.length_nil, hp0]
      omega
    · have h3 : 3 ≤ pop.length := by omega
      obtain ⟨l, hl, hlen'⟩ := buildOffspring_ok o cx mu pop fits gi h3 (pop_size - 1) 0 sp
      simp only [gaGenLoop, hl]
      rw [ih (gi + 1) _ _ _ _ _ _ _ (by simp only [List.length_cons, hlen']; omega), evalPop_count]
      simp only [List.length_cons, hlen']
      ring_nf

/-- The exact call count of the GA whenever no tournament raises: the
population always holds `1 + (pop_size − 1)` individuals (the default one
plus the fill), evaluated once initially and once per generation. -/
lemma genetic_call_count {σ : Type} (E : σ → Config → Cost × σ) (o : GAOracle)
    (initDraws : ℕ → List (List ℕ)) (cx mu : ℚ) (p g : ℕ) (space : Space) (st : σ)
    (hp : p - 1 = 0 ∨ 3 ≤ p) :
    (GeneticOptimizer.optimize E o initDraws cx mu p g space st).calls
      = (1 + (p - 1)) * (1 + g) := by
  have h : (GeneticOptimizer.optimize E o initDraws cx mu p g space st).calls
      = (gaGenLoop E o cx mu p g 1 (gaInitPop space initDraws p).1
          (evalPop E (gaInitPop space initDraws p).1 st).1
          (updateBest (gaInitPop space initDraws p).1
            (evalPop E (gaInitPop space initDraws p).1 st).1 [] ⊤).1
          (updateBest (gaInitPop space initDraws p).1
            (evalPop E (gaInitPop space initDraws p).1 st).1 [] ⊤).2
          (evalPop E (gaInitPop space initDraws p).1 st).2.1
          (evalPop E (gaInitPop space initDraws p).1 st).2.2
          (gaInitPop space initDraws p).2).calls := rfl
  rw [h, gaGenLoop_calls E o cx mu p hp g 1 _ _ _ _ _ _ _ (gaInitPop_length space initDraws p),
    evalPop_count, gaInitPop_length]
  ring

/-- With `pop_size = 2` and at least one generation, the first tournament
call of generation 1 raises `ValueError` (`random.sample(range(2), 3)`),
so `optimize` aborts right after the 2 initial `evaluate()` calls. -/
lemma genetic_crash {σ : Type} (E : σ → Config → Cost × σ) (o : GAOracle)
    (initDraws : ℕ → List (List ℕ)) (cx mu : ℚ) (g : ℕ) (space : Space) (st : σ) :
    (GeneticOptimizer.optimize E o initDraws cx mu 2 (g + 1) space st).best = none ∧
    (GeneticOptimizer.optimize E o initDraws cx mu 2 (g + 1) space st).calls = 2 := by
  have hlen : (gaInitPop space initDraws 2).1.length = 2 := by
    rw [gaInitPop_length]
  have hbo : (buildOffspring o cx mu (gaInitPop space initDraws 2).1
      (evalPop E (gaInitPop space initDraws 2).1 st).1 1 (2 - 1) 0
      (gaInitPop space initDraws 2).2).1 = none :=
    buildOffspring_none o cx mu _ _ 1 (by omega) 0 0 _
  have h : GeneticOptimizer.optimize E o initDraws cx mu 2 (g + 1) space st
      = gaGenLoop E o cx mu 2 (g + 1) 1 (gaInitPop space initDraws 2).1
          (evalPop E (gaInitPop space initDraws 2).1 st).1
          (updateBest (gaInitPop space initDraws 2).1
            (evalPop E (gaInitPop space initDraws 2).1 st).1 [] ⊤).1
          (updateBest (gaInitPop space initDraws 2).1
            (evalPop E (gaInitPop space initDraws 2).1 st).1 [] ⊤).2
          (evalPop E (gaInitPop space initDraws 2).1 st).2.1
          (evalPop E (gaInitPop space initDraws 2).1 st).2.2
          (gaInitPop space initDraws 2).2 := rfl
  rw [h]
  simp only [gaGenLoop, hbo]
  constructor
  · simp
  · rw [evalPop_count]
    exact hlen

/-- C7 (amended): `RandomOptimizer` with budget `b` issues exactly `b + 1`
`evaluate()` calls, for every budget. `GeneticOptimizer` with `pop_size p`
and `generations g` issues exactly `p + g·p` calls when `p = 1` or
`p ≥ 3`; with `p = 2` and `g ≥ 1` the tournament's
`random.sample(range(2), 3)` raises `ValueError` and the run aborts after
exactly the 2 initial calls (and with `p = 0` the code issues `1 + g`
calls, since the population always contains the default individual). -/
theorem budget_call_counts :
    (∀ (σ : Type) (E : σ → Config → Cost × σ) (oracle : ℕ → List (List ℕ)) (b : ℕ)
        (sp : Space) (st : σ),
      (RandomOptimizer.optimize E oracle b sp st).2.2.2 = b + 1) ∧
    (∀ (σ : Type) (E : σ → Config → Cost × σ) (o : GAOracle) (initDraws : ℕ → List (List ℕ))
        (cx mu : ℚ) (p g : ℕ) (space : Space) (st : σ), p = 1 ∨ 3 ≤ p →
      (GeneticOptimizer.optimize E o initDraws cx mu p g space st).calls = p + g * p) ∧
    (∀ (σ : Type) (E : σ → Config → Cost × σ) (o : GAOracle) (initDraws : ℕ → List (List ℕ))
        (cx mu : ℚ) (g : ℕ) (space : Space) (st : σ),
      (GeneticOptimizer.optimize E o initDraws cx mu 2 (g + 1) space st).best = none ∧
      (GeneticOptimizer.optimize E o initDraws cx mu 2 (g + 1) space st).calls = 2) := by
  refine ⟨?_, ?_, ?_⟩
  · intro σ E oracle b sp st
    exact random_call_count E oracle b sp st
  · intro σ E o initDraws cx mu p g space st hp
    have hp' : p - 1 = 0 ∨ 3 ≤ p := by omega
    rw [genetic_call_count E o initDraws cx mu p g space st hp']
    have hq : 1 + (p - 1) = p := by omega
    rw [hq]
    ring
  · intro σ E o initDraws cx mu g space st
    exact genetic_crash E o initDraws cx mu g space st

/-- The degenerate oracle bundle used by concrete GA runs. -/
def demoOracle : GAOracle :=
  ⟨fun _ _ => [0], fun _ _ => [0], fun _ _ => 0, fun _ _ _ => 0,
   fun _ _ => 0, fun _ _ => 0, fun _ _ => 0, fun _ _ => 0⟩

/-- C7 witness: budget 5 gives 6 random-search calls; `pop_size 4`,
`generations 2` gives 12 GA calls; `pop_size 2`, `generations 1` aborts
with `ValueError` after exactly 2 calls. -/
theorem budget_call_counts_w :
    (RandomOptimizer.optimize (pureE demoCost) (fun _ => [[1]]) 5 demoSpace ()).2.2.2 = 5 + 1 ∧
    (GeneticOptimizer.optimize (pureE demoCost) demoOracle (fun _ => [[1]]) (7 / 10) (2 / 10)
        4 2 demoSpace ()).calls = 4 + 2 * 4 ∧
    (GeneticOptimizer.optimize (pureE demoCost) demoOracle (fun _ => [[1]]) (7 / 10) (2 / 10)
        2 (0 + 1) demoSpace ()).best = none ∧
    (GeneticOptimizer.optimize (pureE demoCost) demoOracle (fun _ => [[1]]) (7 / 10) (2 / 10)
        2 (0 + 1) demoSpace ()).calls = 2 :=
  ⟨budget_call_counts.1 Unit (pureE demoCost) (fun _ => [[1]]) 5 demoSpace (),
   budget_call_counts.2.1 Unit (pureE demoCost) demoOracle (fun _ => [[1]]) (7 / 10) (2 / 10)
     4 2 demoSpace () (Or.inr (by norm_num)),
   (budget_call_counts.2.2 Unit (pureE demoCost) demoOracle (fun _ => [[1]]) (7 / 10) (2 / 10)
     0 demoSpace ()).1,
   (budget_call_counts.2.2 Unit (pureE demoCost) demoOracle (fun _ => [[1]]) (7 / 10) (2 / 10)
     0 demoSpace ()).2⟩

/-- C7 counterexample: with `pop_size = 0` and `generations = 1` the code
issues 2 evaluator calls (the default individual is always present), not
`0 + 1·0 = 0` as the claim's formula demands. -/
theorem genetic_zero_pop_counterexample :
    (GeneticOptimizer.optimize (pureE demoCost) demoOracle (fun _ => [[1]]) (7 / 10) (2 / 10)
        0 1 demoSpace ()).calls = 2 ∧ (2 : ℕ) ≠ 0 + 1 * 0 := by
  constructor
  · rw [genetic_call_count (pureE demoCost) demoOracle (fun _ => [[1]]) (7 / 10) (2 / 10)
      0 1 demoSpace () (Or.inl rfl)]
  · norm_num

end X265
